import Mathlib

/-!
# Custom branch predictor (`src/cpu/pred/custom.cc`, `custom.hh`)

The file embeds the two components of the repository: the branch predictor
`CustomBP` (this part) and the cache replacement policy `LRU_Variation`
(`lru_variation.cc`, further down).

Shallow embedding of the `CustomBP` class: a per-thread global history
register bank, a pattern history table (PHT) of saturating counters indexed
by `(shifted address OR history) AND mask`, and the predict / resolve /
squash protocol that exchanges `BPHistory` records with the pipeline.

Conventions of the embedding:

* `unsigned` is a 32-bit machine integer.  Values are natural numbers and a
  reduction `% 2 ^ 32` is written wherever a C++ operation can leave the
  range (the left shift of `updateGH`, the narrowing assignments of the
  constructor).  `Addr` is an unsigned 64-bit integer, `ThreadID` an index.
* `std::vector` is a `List`; `v[i]` with `i` out of range is undefined
  behaviour in C++ and makes the embedded operation return `none`.
* `branchAddr >> instShiftAmt` is the shift of natural numbers; it is the C++
  shift of the 64-bit address for every count below 64 (`instShiftAmt` is the
  instruction alignment of the base class, a small constant).
* A `void*` history handle is the `BPHistory` value it points to.  The
  operations that receive a record return, next to the new predictor state,
  a flag telling whether the `delete history` statement was executed.
-/

/-! ## Saturating counter -/

/-- Modelled from the spec: `SatCounter8` of `base/sat_counter.hh` is not among
the sources.  Section 4.1 describes it as a fixed-width unsigned counter whose
width is fixed at construction; `bits` is that width and `counter` the value. -/
structure SatCounter8 where
  bits : Nat
  counter : Nat
deriving DecidableEq, Repr

namespace SatCounter8

/-- Modelled from the spec: the constructor `SatCounter8(bits)` of the absent
`base/sat_counter.hh`; a new counter of the given width holds 0. -/
def new (bits : Nat) : SatCounter8 :=
  { bits := bits, counter := 0 }

/-- Modelled from the spec: `increment()` of the absent `base/sat_counter.hh`,
"raises the value by 1, clamped at `2^width - 1`". -/
def increment (c : SatCounter8) : SatCounter8 :=
  { c with counter := min (c.counter + 1) (2 ^ c.bits - 1) }

/-- Modelled from the spec: `decrement()` of the absent `base/sat_counter.hh`,
"lowers it by 1, clamped at 0". -/
def decrement (c : SatCounter8) : SatCounter8 :=
  { c with counter := c.counter - 1 }

/-- Modelled from the spec: `read() -> value` of the absent
`base/sat_counter.hh` (the conversion operator used by `patternCtr = PHTCtr[PHTIdx]`). -/
def read (c : SatCounter8) : Nat :=
  c.counter

end SatCounter8

/-! ## Data model -/

/-- The record `struct BPHistory` of `custom.hh`: two `unsigned` fields. -/
structure BPHistory where
  globalHistoryReg : Nat
  globalPrediction : Nat
deriving DecidableEq, Repr

/-- The construction parameters read by `CustomBP::CustomBP`; `numThreads` and
`instShiftAmt` are the ones consumed by the base class `BPredUnit`. -/
structure CustomBPParams where
  numThreads : Nat
  instShiftAmt : Nat
  globalHistoryBits : Nat
  PredictorSize : Nat
  PHTCtrBits : Nat
deriving DecidableEq, Repr

/-- The data members of `class CustomBP` (`custom.hh` lines 29-38) together with
`instShiftAmt`, inherited from `BPredUnit`. -/
structure CustomBP where
  instShiftAmt : Nat
  globalHistory : List Nat
  globalHistoryBits : Nat
  PredictorSize : Nat
  PHTCtrBits : Nat
  branchMask : Nat
  globalHistoryMask : Nat
  PHTThreshold : Nat
  PHTCtr : List SatCounter8
deriving DecidableEq, Repr

/-- Modelled from the spec: the helper `mask(nbits)` of `base/bitfield.hh` is not
among the sources; section 3 gives `globalHistoryMask = (1 << globalHistoryBits) - 1`. -/
def mask (nbits : Nat) : Nat :=
  (1 <<< nbits) - 1

/-- The conversion `static_cast<int>` of a 32-bit pattern: two's complement. -/
def toInt32 (x : Nat) : Int :=
  if x % 2 ^ 32 < 2 ^ 31 then ((x % 2 ^ 32 : Nat) : Int) else ((x % 2 ^ 32 : Nat) : Int) - 2 ^ 32

/-- How a construction can end without producing a predictor. -/
inductive ConstructionError where
  /-- The call of `fatal` at `custom.cc` line 23: "Predictor Size is too small
  for the specified global History bits. It must be atleast 2^globalHistoryBits." -/
  | fatal
  /-- A shift whose count is not smaller than the width of the shifted type. -/
  | undefinedShift
deriving DecidableEq, Repr

namespace CustomBP

/-- The test of `custom.cc` line 22,
`static_cast<int>(PredictorSize) < static_cast<int>(1 << globalHistoryBits)`,
for a shift count below 32. -/
def sizeCheckFails (PredictorSize globalHistoryBits : Nat) : Bool :=
  decide (toInt32 PredictorSize < toInt32 (1 <<< globalHistoryBits))

/-- The constructor `CustomBP::CustomBP` (`custom.cc` lines 14-28). -/
def new (params : CustomBPParams) : Except ConstructionError CustomBP :=
  if 32 ≤ params.globalHistoryBits then
    .error .undefinedShift
  else if sizeCheckFails params.PredictorSize params.globalHistoryBits then
    .error .fatal
  else if params.PHTCtrBits = 0 ∨ 64 < params.PHTCtrBits then
    .error .undefinedShift
  else
    .ok
      { instShiftAmt := params.instShiftAmt
        globalHistory := List.replicate params.numThreads 0
        globalHistoryBits := params.globalHistoryBits
        PredictorSize := params.PredictorSize
        PHTCtrBits := params.PHTCtrBits
        PHTCtr := List.replicate params.PredictorSize (SatCounter8.new params.PHTCtrBits)
        globalHistoryMask := mask params.globalHistoryBits % 2 ^ 32
        branchMask := mask params.globalHistoryBits % 2 ^ 32
        PHTThreshold := ((1 <<< (params.PHTCtrBits - 1)) - 1) % 2 ^ 32 }

/-- The assignment `globalHistory[tid] = v` on a valid thread index. -/
def setGH (s : CustomBP) (tid v : Nat) : CustomBP :=
  { s with globalHistory := s.globalHistory.set tid v }

/-- The assignment `PHTCtr[idx] = c` on a valid table index. -/
def setPHT (s : CustomBP) (idx : Nat) (c : SatCounter8) : CustomBP :=
  { s with PHTCtr := s.PHTCtr.set idx c }

/-- The function `CustomBP::updateGH` (`custom.cc` lines 146-151): shift the
outcome into the register of `tid` in 32-bit arithmetic, then mask. -/
def updateGH (s : CustomBP) (tid : Nat) (taken : Bool) : Option CustomBP :=
  match s.globalHistory[tid]? with
  | none => none
  | some g =>
    let shifted := if taken then ((g <<< 1) % 2 ^ 32) ||| 1 else (g <<< 1) % 2 ^ 32
    some (s.setGH tid (shifted &&& s.globalHistoryMask))

/-- The function `CustomBP::uncondBranch` (`custom.cc` lines 34-44); the result is
the record stored through `bpHistory` and the new predictor state. -/
def uncondBranch (s : CustomBP) (tid : Nat) (_pc : Nat) : Option (BPHistory × CustomBP) :=
  match s.globalHistory[tid]? with
  | none => none
  | some g =>
    let history : BPHistory :=
      { globalHistoryReg := g &&& s.globalHistoryMask, globalPrediction := 1 }
    (updateGH s tid true).map fun s' => (history, s')

/-- The function `CustomBP::btbUpdate` (`custom.cc` lines 53-56); `~ULL(1)` is the
64-bit pattern `2^64 - 2`. -/
def btbUpdate (s : CustomBP) (tid : Nat) (_branchAddr : Nat) : Option CustomBP :=
  match s.globalHistory[tid]? with
  | none => none
  | some g =>
    some (s.setGH tid (g &&& (s.globalHistoryMask &&& (2 ^ 64 - 2))))

/-- The index expression shared by `lookup` (lines 74-75) and `update` (lines
118-119): `((branchAddr >> instShiftAmt) & branchMask | history) & globalHistoryMask`. -/
def PHTIdx (s : CustomBP) (branchAddr history : Nat) : Nat :=
  (((branchAddr >>> s.instShiftAmt) &&& s.branchMask) ||| history) &&& s.globalHistoryMask

/-- The function `CustomBP::lookup` (`custom.cc` lines 68-89); the result is the
returned prediction, the record stored through `bpHistory` and the new state. -/
def lookup (s : CustomBP) (tid : Nat) (branchAddr : Nat) :
    Option (Bool × BPHistory × CustomBP) :=
  match s.globalHistory[tid]? with
  | none => none
  | some g =>
    match s.PHTCtr[s.PHTIdx branchAddr g]? with
    | none => none
    | some c =>
      let patternCtr := c.read
      let Prediction : Bool := decide (patternCtr > s.PHTThreshold)
      let history : BPHistory :=
        { globalHistoryReg := g, globalPrediction := if Prediction then 1 else 0 }
      (updateGH s tid Prediction).map fun s' => (Prediction, history, s')

/-- The function `CustomBP::update` (`custom.cc` lines 104-123); the flag of the
result tells whether `delete history` (line 122) was executed. -/
def update (s : CustomBP) (tid : Nat) (branchAddr : Nat) (taken : Bool)
    (history : BPHistory) (squashed : Bool) : Option (CustomBP × Bool) :=
  if squashed then
    if tid < s.globalHistory.length then
      (updateGH (s.setGH tid history.globalHistoryReg) tid taken).map fun s' => (s', false)
    else none
  else
    match s.PHTCtr[s.PHTIdx branchAddr history.globalHistoryReg]? with
    | none => none
    | some c =>
      some (s.setPHT (s.PHTIdx branchAddr history.globalHistoryReg)
        (if taken then c.increment else c.decrement), true)

/-- The function `CustomBP::squash` (`custom.cc` lines 132-138); the flag of the
result tells whether `delete history` (line 137) was executed. -/
def squash (s : CustomBP) (tid : Nat) (history : BPHistory) : Option (CustomBP × Bool) :=
  if tid < s.globalHistory.length then
    some (s.setGH tid history.globalHistoryReg, true)
  else none

/-- The derived members hold what the constructor assigned to them (lines
25-27); no member function writes them afterwards. -/
def Configured (s : CustomBP) : Prop :=
  s.globalHistoryMask = mask s.globalHistoryBits % 2 ^ 32 ∧
  s.branchMask = mask s.globalHistoryBits % 2 ^ 32 ∧
  s.PHTThreshold = ((1 <<< (s.PHTCtrBits - 1)) - 1) % 2 ^ 32

instance (s : CustomBP) : Decidable s.Configured := by
  unfold Configured; infer_instance

end CustomBP

/-- A predict call on a fixed thread: `lookup` with a branch address or
`uncondBranch` with a program counter. -/
inductive Predict where
  | lookup (branchAddr : Nat)
  | uncondBranch (pc : Nat)
deriving DecidableEq, Repr

namespace CustomBP

/-- One predict call on thread `tid`: the record it issues and the new state. -/
def predict (s : CustomBP) (tid : Nat) : Predict → Option (BPHistory × CustomBP)
  | .lookup branchAddr => (s.lookup tid branchAddr).map fun r => (r.2.1, r.2.2)
  | .uncondBranch pc => s.uncondBranch tid pc

/-- A sequence of predict calls on thread `tid`, with no other call in between:
the records in order of issue and the final state. -/
def predictAll (s : CustomBP) (tid : Nat) : List Predict → Option (List BPHistory × CustomBP)
  | [] => some ([], s)
  | p :: ps =>
    match s.predict tid p with
    | none => none
    | some (h, s') =>
      match predictAll s' tid ps with
      | none => none
      | some (hs, s'') => some (h :: hs, s'')

/-- A sequence of `squash` calls on thread `tid`, in the order of the list. -/
def squashAll (s : CustomBP) (tid : Nat) : List BPHistory → Option CustomBP
  | [] => some s
  | h :: hs =>
    match s.squash tid h with
    | none => none
    | some (s', _) => squashAll s' tid hs

end CustomBP

/-- A call of one of the public member functions of `CustomBP`. -/
inductive Call where
  | uncondBranch (tid pc : Nat)
  | lookup (tid branchAddr : Nat)
  | btbUpdate (tid branchAddr : Nat)
  | update (tid branchAddr : Nat) (taken : Bool) (history : BPHistory) (squashed : Bool)
  | squash (tid : Nat) (history : BPHistory)
deriving DecidableEq, Repr

/-- The history record a call receives from its caller, if any. -/
def Call.record : Call → Option BPHistory
  | .update _ _ _ history _ => some history
  | .squash _ history => some history
  | _ => none

namespace CustomBP

/-- One call: the new state and the record the call issued, if any. -/
def step (s : CustomBP) : Call → Option (CustomBP × Option BPHistory)
  | .uncondBranch tid pc => (s.uncondBranch tid pc).map fun r => (r.2, some r.1)
  | .lookup tid branchAddr => (s.lookup tid branchAddr).map fun r => (r.2.2, some r.2.1)
  | .btbUpdate tid branchAddr => (s.btbUpdate tid branchAddr).map fun s' => (s', none)
  | .update tid branchAddr taken history squashed =>
    (s.update tid branchAddr taken history squashed).map fun r => (r.1, none)
  | .squash tid history => (s.squash tid history).map fun r => (r.1, none)

/-- A sequence of calls from state `s`; `issued` collects the records issued so
far.  The result is `none` when some call has undefined behaviour. -/
def run (s : CustomBP) (issued : List BPHistory) : List Call → Option (CustomBP × List BPHistory)
  | [] => some (s, issued)
  | c :: cs =>
    match s.step c with
    | none => none
    | some (s', r) => run s' (r.toList ++ issued) cs

/-- Every record passed to `update` or `squash` in the sequence was issued by an
earlier `uncondBranch` or `lookup` (of the sequence, or listed in `issued`). -/
def issuedOnly (s : CustomBP) (issued : List BPHistory) : List Call → Bool
  | [] => true
  | c :: cs =>
    (match c.record with
      | none => true
      | some history => decide (history ∈ issued)) &&
    (match s.step c with
      | none => true
      | some (s', r) => issuedOnly s' (r.toList ++ issued) cs)

/-- A sequence of `updateGH` calls on thread `tid`, one per outcome. -/
def updateGHAll (s : CustomBP) (tid : Nat) : List Bool → Option CustomBP
  | [] => some s
  | taken :: rest =>
    match s.updateGH tid taken with
    | none => none
    | some s' => updateGHAll s' tid rest

/-- The same non-squashed `update` call repeated `n` times. -/
def updateRepeat (s : CustomBP) (tid branchAddr : Nat) (taken : Bool) (history : BPHistory) :
    Nat → Option CustomBP
  | 0 => some s
  | n + 1 =>
    match s.update tid branchAddr taken history false with
    | none => none
    | some (s', _) => updateRepeat s' tid branchAddr taken history n

/-- The value `updateGH` leaves in the register, without the 32-bit truncation
(absorbed by the mask): `((g << 1) OR outcome) AND globalHistoryMask`. -/
def shiftIn (s : CustomBP) (g : Nat) (taken : Bool) : Nat :=
  ((g <<< 1) ||| (if taken then 1 else 0)) &&& s.globalHistoryMask

/-- The precondition of the round trip on thread `tid`: the derived members are
the constructor's, the register of `tid` exists and is at most the mask, and
the table is longer than the mask (so every index is in range). -/
def Ready (s : CustomBP) (tid : Nat) : Prop :=
  s.Configured ∧ (∃ g, s.globalHistory[tid]? = some g ∧ g ≤ s.globalHistoryMask) ∧
    s.globalHistoryMask < s.PHTCtr.length

end CustomBP

/-- The configuration of the spec's worked example: one thread, instruction
shift 2, `globalHistoryBits = 4`, `PredictorSize = 16`, `PHTCtrBits = 2`. -/
def exampleParams : CustomBPParams :=
  { numThreads := 1, instShiftAmt := 2, globalHistoryBits := 4, PredictorSize := 16,
    PHTCtrBits := 2 }

/-- The predictor built from `exampleParams`. -/
def examplePredictor : CustomBP :=
  { instShiftAmt := 2
    globalHistory := [0]
    globalHistoryBits := 4
    PredictorSize := 16
    PHTCtrBits := 2
    branchMask := 15
    globalHistoryMask := 15
    PHTThreshold := 1
    PHTCtr := List.replicate 16 (SatCounter8.new 2) }

/-- A run on the example predictor: a lookup, an unconditional branch, the
resolution of the lookup as taken, the squash of the unconditional branch and
a second unconditional branch. -/
def exampleCalls : List Call :=
  [.lookup 0 20, .uncondBranch 0 64, .update 0 20 true ⟨0, 0⟩ false, .squash 0 ⟨0, 1⟩,
    .uncondBranch 0 64]

/-- The state the example predictor reaches by `exampleCalls`. -/
def exampleFinal : CustomBP :=
  (examplePredictor.setPHT 5 ⟨2, 1⟩).setGH 0 1

/-- A configuration with `globalHistoryBits = 31` and only 4 counters. -/
def smallTableParams : CustomBPParams :=
  { numThreads := 1, instShiftAmt := 2, globalHistoryBits := 31, PredictorSize := 4,
    PHTCtrBits := 2 }

/-- The thread a call is made for. -/
def Call.tid : Call → Nat
  | .uncondBranch tid _ => tid
  | .lookup tid _ => tid
  | .btbUpdate tid _ => tid
  | .update tid _ _ _ _ => tid
  | .squash tid _ => tid

/-- The outcome a call trains PHT index `i` with: `some taken` for an `update`
with `squashed = false` whose index (lines 118-119) is `i`, `none` for every
other call. -/
def Call.hit (s : CustomBP) (i : Nat) : Call → Option Bool
  | .update _ branchAddr taken history false =>
    if s.PHTIdx branchAddr history.globalHistoryReg = i then some taken else none
  | _ => none

/-- The number of calls of the sequence that train PHT index `i` with outcome
taken. -/
def takenHits (s : CustomBP) (i : Nat) (calls : List Call) : Nat :=
  calls.countP fun c => c.hit s i == some true

/-- A state of the example configuration with two threads, whose registers
hold 3 and 6. -/
def twoThreadPredictor : CustomBP :=
  { examplePredictor with globalHistory := [3, 6] }

/-! ## Cache replacement policy (`lru_variation.cc`, `lru_variation.hh`)

The recency stack of a set is the `std::vector<int>` shared by the blocks of
the set; it is a `List Int`.  A block is identified by its `position`, a
non-negative index (`instantiateEntry` assigns `blocknum % set_associativity`).
`RStack->at(i)` with `i` out of range throws, and `IPV[r]` or `candidates[k]`
with an index out of range is undefined: the embedded operation returns `none`.
-/

namespace LRU_Variation

/-- The insertion and promotion vector `IPV` (`lru_variation.hh` line 36). -/
def IPV : List Int :=
  [0, 0, 1, 0, 2, 0, 2, 2, 1, 0, 5, 1, 0, 0, 5, 11]

/-- The constant `insertionRecency` (`lru_variation.hh` line 38). -/
def insertionRecency : Int := 3

/-- The constant `set_associativity` (`lru_variation.hh` line 40). -/
def set_associativity : Int := 16

/-- The recency stack `instantiateEntry` builds for a new set (line 131),
`IPVtype(set_associativity, set_associativity)`: 16 entries equal to 16. -/
def initialStack : List Int :=
  List.replicate set_associativity.toNat set_associativity

/-- The read `IPV[r]` with an `int` index (line 64). -/
def IPVat (r : Int) : Option Int :=
  if 0 ≤ r then IPV[r.toNat]? else none

/-- The function `LRU_Variation::reset` (`lru_variation.cc` lines 33-44): the loop
increments each entry `r` with `insertionRecency <= r < RStack->size()`, then the
entry at `position` is set to `insertionRecency`. -/
def reset (RStack : List Int) (position : Nat) : Option (List Int) :=
  let bumped := RStack.map fun r =>
    if r ≥ insertionRecency ∧ r < (RStack.length : Int) then r + 1 else r
  if position < RStack.length then some (bumped.set position insertionRecency) else none

/-- The function `LRU_Variation::touch` (`lru_variation.cc` lines 53-80). -/
def touch (RStack : List Int) (position : Nat) : Option (List Int) :=
  match RStack[position]? with
  | none => none
  | some currentRecency =>
    if currentRecency = set_associativity then some RStack
    else
      match IPVat currentRecency with
      | none => none
      | some updatedRecency =>
        let bumped := RStack.map fun r =>
          if r ≥ updatedRecency ∧ r < currentRecency then r + 1 else r
        some (bumped.set position updatedRecency)

/-- The loop of `getVictim` (lines 112-118) from index `i` on, with the current
values of `max_recency` and `victim_index`; the result is their final values. -/
def getVictimLoop : List Int → Nat → Int → Int → Int × Int
  | [], _, max_recency, victim_index => (max_recency, victim_index)
  | value :: rest, i, max_recency, victim_index =>
    if value > max_recency then getVictimLoop rest (i + 1) value i
    else getVictimLoop rest (i + 1) max_recency victim_index

/-- The value of `victim_index` after the loop of `getVictim`, started with
`max_recency = -1` and `victim_index = -1` (lines 109-118). -/
def victimIndex (RStack : List Int) : Int :=
  (getVictimLoop RStack 0 (-1) (-1)).2

/-- The function `LRU_Variation::getVictim` (`lru_variation.cc` lines 99-121);
`RStack` is the recency stack of `candidates[0]`, shared by all candidates. -/
def getVictim {α : Type} (candidates : List α) (RStack : List Int) : Option α :=
  if candidates.length = 0 then none
  else if 0 ≤ victimIndex RStack then candidates[(victimIndex RStack).toNat]? else none

/-- A call of `reset` or `touch` on the block at a position. -/
inductive Op where
  | reset (position : Nat)
  | touch (position : Nat)
deriving DecidableEq, Repr

/-- The position an operation is applied to. -/
def Op.position : Op → Nat
  | .reset position => position
  | .touch position => position

/-- A sequence of `reset` and `touch` calls on one recency stack. -/
def applyOps (RStack : List Int) : List Op → Option (List Int)
  | [] => some RStack
  | .reset position :: ops =>
    match reset RStack position with
    | none => none
    | some RStack' => applyOps RStack' ops
  | .touch position :: ops =>
    match touch RStack position with
    | none => none
    | some RStack' => applyOps RStack' ops

/-- One miss: `v = getVictim; reset(v)` on a set whose candidate `k` is the block
at position `k`.  The result is the victim, its recency when chosen and the
new stack. -/
def missRound (RStack : List Int) : Option (Nat × Int × List Int) :=
  match getVictim (List.range RStack.length) RStack with
  | none => none
  | some v =>
    match RStack[v]?, reset RStack v with
    | some r, some RStack' => some (v, r, RStack')
    | _, _ => none

/-- The first `n` misses in a row: for each round the victim and its recency
when chosen, and the final stack. -/
def missRounds : Nat → List Int → Option (List (Nat × Int) × List Int)
  | 0, RStack => some ([], RStack)
  | n + 1, RStack =>
    match missRound RStack with
    | none => none
    | some (v, r, RStack') =>
      match missRounds n RStack' with
      | none => none
      | some (log, final) => some ((v, r) :: log, final)

/-- The invariant of the recency stack of a 16-way set: 16 entries, every
recency between 0 and 16, and no recency below 16 held by two positions. -/
def StackInv (RStack : List Int) : Prop :=
  RStack.length = 16 ∧
  (∀ (i : Nat) (v : Int), RStack[i]? = some v → 0 ≤ v ∧ v ≤ 16) ∧
  (∀ (i j : Nat) (v : Int), RStack[i]? = some v → RStack[j]? = some v → v < 16 → i = j)

/-- A stack of 16 recencies, one per candidate, for an example of `getVictim`. -/
def exampleStack : List Int :=
  [4, 16, 0, 7, 16, 3, 1, 2, 5, 6, 8, 9, 10, 11, 12, 13]

/-- The stack of a 16-way set after 16 insertions at positions 0 to 15. -/
def fullStack : List Int :=
  [16, 16, 16, 15, 14, 13, 12, 11, 10, 9, 8, 7, 6, 5, 4, 3]

/-- The stack a 16-way set has after every 14th miss of a miss-only run. -/
def cycleStack : List Int :=
  [16, 15, 14, 13, 12, 11, 10, 9, 8, 7, 6, 5, 4, 3, 16, 16]

/-- The victims of 14 consecutive misses, each with recency 16 when chosen. -/
def cycleLog : List (Nat × Int) :=
  (List.range 14).map fun k => (k, 16)

/-- The log of `14 * q` misses that go `q` times round positions 0 to 13. -/
def repeatLog : Nat → List (Nat × Int)
  | 0 => []
  | q + 1 => cycleLog ++ repeatLog q

end LRU_Variation

/-! ## Arithmetic of masks and 32-bit truncation -/

theorem mask_eq (nbits : Nat) : mask nbits = 2 ^ nbits - 1 := by
  simp [mask, Nat.one_shiftLeft]

theorem mask_mod_eq (nbits : Nat) : mask nbits % 2 ^ 32 = 2 ^ (min nbits 32) - 1 := by
  rw [mask_eq]
  rcases Nat.le_total nbits 32 with h | h
  · rw [Nat.min_eq_left h]
    apply Nat.mod_eq_of_lt
    have h1 : 2 ^ nbits ≤ 2 ^ 32 := Nat.pow_le_pow_right (by norm_num) h
    have h2 : 0 < 2 ^ nbits := Nat.two_pow_pos _
    omega
  · rw [Nat.min_eq_right h]
    obtain ⟨k, rfl⟩ := Nat.exists_eq_add_of_le h
    have h2 : 0 < 2 ^ k := Nat.two_pow_pos _
    obtain ⟨j, hj⟩ := Nat.exists_eq_add_of_le h2
    rw [Nat.pow_add, hj]
    have : 2 ^ 32 * (1 + j) - 1 = (2 ^ 32 - 1) + 2 ^ 32 * j := by ring_nf; omega
    rw [this, Nat.add_mul_mod_self_left]
    norm_num

theorem and_mask_of_le (g nbits : Nat) (h : g ≤ mask nbits % 2 ^ 32) :
    g &&& (mask nbits % 2 ^ 32) = g := by
  rw [mask_mod_eq] at h ⊢
  rw [Nat.and_pow_two_sub_one_eq_mod]
  apply Nat.mod_eq_of_lt
  have h2 : 0 < 2 ^ (min nbits 32) := Nat.two_pow_pos _
  omega

theorem trunc_and (x m : Nat) (hm : m < 2 ^ 32) : (x % 2 ^ 32) &&& m = x &&& m := by
  rw [← Nat.and_pow_two_sub_one_eq_mod, Nat.and_assoc]
  congr 1
  rw [Nat.and_comm, Nat.and_pow_two_sub_one_eq_mod, Nat.mod_eq_of_lt hm]

theorem shiftIn_trunc (g m : Nat) (taken : Bool) (hm : m < 2 ^ 32) :
    (if taken then ((g <<< 1) % 2 ^ 32) ||| 1 else (g <<< 1) % 2 ^ 32) &&& m
      = ((g <<< 1) ||| (if taken then 1 else 0)) &&& m := by
  cases taken
  · simpa using trunc_and (g <<< 1) m hm
  · simp only [if_true]
    rw [Nat.and_comm, Nat.and_or_distrib_left, Nat.and_comm m, trunc_and _ _ hm,
      Nat.and_comm _ m, Nat.and_comm _ m, ← Nat.and_or_distrib_left]

theorem threshold_eq (w : Nat) (h1 : 1 ≤ w) (h2 : w ≤ 32) :
    ((1 <<< (w - 1)) - 1) % 2 ^ 32 = 2 ^ (w - 1) - 1 := by
  rw [Nat.one_shiftLeft]
  apply Nat.mod_eq_of_lt
  have h3 : 2 ^ (w - 1) ≤ 2 ^ 31 := Nat.pow_le_pow_right (by norm_num) (by omega)
  have h4 : 0 < 2 ^ (w - 1) := Nat.two_pow_pos _
  omega

theorem CustomBP.Configured.mask_lt {s : CustomBP} (h : s.Configured) : s.globalHistoryMask < 2 ^ 32 := by
  rw [h.1]
  exact Nat.mod_lt _ (by norm_num)

/-! ## Single operations -/

namespace CustomBP

theorem getElem?_set_self_of_some {α : Type} (l : List α) (i : Nat) (a b : α)
    (h : l[i]? = some a) : (l.set i b)[i]? = some b := by
  have hlt : i < l.length := by
    by_contra hge
    rw [List.getElem?_eq_none (by omega)] at h
    cases h
  simp [List.getElem?_set, hlt]

theorem lt_length_of_getElem? {α : Type} (l : List α) (i : Nat) (a : α)
    (h : l[i]? = some a) : i < l.length := by
  by_contra hge
  rw [List.getElem?_eq_none (by omega)] at h
  cases h

theorem updateGH_eq (s : CustomBP) (tid g : Nat) (taken : Bool)
    (hm : s.globalHistoryMask < 2 ^ 32) (hg : s.globalHistory[tid]? = some g) :
    s.updateGH tid taken = some (s.setGH tid (s.shiftIn g taken)) := by
  simp only [updateGH, hg, shiftIn]
  rw [shiftIn_trunc g _ taken hm]

theorem lookup_eq (s : CustomBP) (tid branchAddr g : Nat) (c : SatCounter8)
    (hm : s.globalHistoryMask < 2 ^ 32) (hg : s.globalHistory[tid]? = some g)
    (hc : s.PHTCtr[s.PHTIdx branchAddr g]? = some c) :
    s.lookup tid branchAddr = some (decide (c.read > s.PHTThreshold),
      ⟨g, if decide (c.read > s.PHTThreshold) then 1 else 0⟩,
      s.setGH tid (s.shiftIn g (decide (c.read > s.PHTThreshold)))) := by
  simp only [lookup, hg, hc]
  rw [updateGH_eq s tid g _ hm hg]
  rfl

theorem uncondBranch_eq (s : CustomBP) (tid pc g : Nat)
    (hm : s.globalHistoryMask < 2 ^ 32) (hg : s.globalHistory[tid]? = some g) :
    s.uncondBranch tid pc
      = some (⟨g &&& s.globalHistoryMask, 1⟩, s.setGH tid (s.shiftIn g true)) := by
  simp only [uncondBranch, hg]
  rw [updateGH_eq s tid g _ hm hg]
  rfl

theorem update_squashed_eq (s : CustomBP) (tid branchAddr : Nat) (taken : Bool)
    (history : BPHistory) (hm : s.globalHistoryMask < 2 ^ 32)
    (htid : tid < s.globalHistory.length) :
    s.update tid branchAddr taken history true
      = some (s.setGH tid (s.shiftIn history.globalHistoryReg taken), false) := by
  have hg : (s.setGH tid history.globalHistoryReg).globalHistory[tid]?
      = some history.globalHistoryReg := by
    simp [setGH, List.getElem?_set, htid]
  simp only [update, if_true, htid]
  rw [updateGH_eq (s.setGH tid history.globalHistoryReg) tid _ taken hm hg]
  simp [setGH, shiftIn]

theorem update_resolve_eq (s : CustomBP) (tid branchAddr : Nat) (taken : Bool)
    (history : BPHistory) (c : SatCounter8)
    (hc : s.PHTCtr[s.PHTIdx branchAddr history.globalHistoryReg]? = some c) :
    s.update tid branchAddr taken history false
      = some (s.setPHT (s.PHTIdx branchAddr history.globalHistoryReg)
          (if taken then c.increment else c.decrement), true) := by
  simp [update, hc]

theorem squash_eq (s : CustomBP) (tid : Nat) (history : BPHistory)
    (htid : tid < s.globalHistory.length) :
    s.squash tid history = some (s.setGH tid history.globalHistoryReg, true) := by
  simp [squash, htid]

end CustomBP

/-- The example predictor is the one the constructor builds from `exampleParams`. -/
theorem new_exampleParams : CustomBP.new exampleParams = .ok examplePredictor := by
  rfl

/-- C1: for a predictor whose derived members are the constructor's, with a
counter width between 1 and 32, a valid thread and an index inside the table,
`lookup` returns true exactly when the counter at
`idx = (((branchAddr >> instShiftAmt) AND branchMask) OR globalHistory[tid]) AND globalHistoryMask`
exceeds `2^(PHTCtrBits-1) - 1`; the record holds the old register and the
prediction; the register of `tid` becomes `((old << 1) OR prediction) AND
globalHistoryMask`; the PHT is unchanged. -/
theorem C1_lookup_contract (s : CustomBP) (tid branchAddr g : Nat) (c : SatCounter8)
    (hcfg : s.Configured) (hw : 1 ≤ s.PHTCtrBits ∧ s.PHTCtrBits ≤ 32)
    (hg : s.globalHistory[tid]? = some g)
    (hc : s.PHTCtr[(((branchAddr >>> s.instShiftAmt) &&& s.branchMask) ||| g)
            &&& s.globalHistoryMask]? = some c) :
    ∃ (prediction : Bool) (history : BPHistory) (s' : CustomBP),
      s.lookup tid branchAddr = some (prediction, history, s') ∧
      (prediction = true ↔ c.read > 2 ^ (s.PHTCtrBits - 1) - 1) ∧
      history.globalHistoryReg = g ∧
      history.globalPrediction = (if prediction then 1 else 0) ∧
      s'.globalHistory[tid]? =
        some (((g <<< 1) ||| (if prediction then 1 else 0)) &&& s.globalHistoryMask) ∧
      s'.PHTCtr = s.PHTCtr := by
  refine ⟨_, _, _, CustomBP.lookup_eq s tid branchAddr g c hcfg.mask_lt hg hc,
    ?_, rfl, rfl, ?_, rfl⟩
  · rw [hcfg.2.2, threshold_eq _ hw.1 hw.2]
    simp
  · exact CustomBP.getElem?_set_self_of_some _ _ _ _ hg

/-- Witness of C1 on the example predictor: thread 0, address 20 (index 5). -/
theorem C1_lookup_contract_witness :
    ∃ (prediction : Bool) (history : BPHistory) (s' : CustomBP),
      examplePredictor.lookup 0 20 = some (prediction, history, s') ∧
      (prediction = true ↔ (SatCounter8.new 2).read > 2 ^ (examplePredictor.PHTCtrBits - 1) - 1) ∧
      history.globalHistoryReg = 0 ∧
      history.globalPrediction = (if prediction then 1 else 0) ∧
      s'.globalHistory[0]? =
        some (((0 <<< 1) ||| (if prediction then 1 else 0)) &&&
          examplePredictor.globalHistoryMask) ∧
      s'.PHTCtr = examplePredictor.PHTCtr :=
  C1_lookup_contract examplePredictor 0 20 0 (SatCounter8.new 2) (by decide) (by decide)
    (by decide) (by decide)

/-- C2: `update` with `squashed = false` changes exactly the counter at
`idx = (((branchAddr >> instShiftAmt) AND branchMask) OR record.globalHistoryReg) AND globalHistoryMask`,
by a saturating increment when taken and a saturating decrement when not
taken; every other counter and the whole history bank are unchanged. -/
theorem C2_update_resolve (s : CustomBP) (tid branchAddr : Nat) (taken : Bool)
    (history : BPHistory) (c : SatCounter8)
    (hc : s.PHTCtr[(((branchAddr >>> s.instShiftAmt) &&& s.branchMask) |||
            history.globalHistoryReg) &&& s.globalHistoryMask]? = some c) :
    ∃ (s' : CustomBP) (released : Bool),
      s.update tid branchAddr taken history false = some (s', released) ∧
      s'.PHTCtr[(((branchAddr >>> s.instShiftAmt) &&& s.branchMask) |||
            history.globalHistoryReg) &&& s.globalHistoryMask]?
        = some (if taken then c.increment else c.decrement) ∧
      (if taken then c.increment else c.decrement).read
        = (if taken then min (c.read + 1) (2 ^ c.bits - 1) else c.read - 1) ∧
      (∀ j, j ≠ (((branchAddr >>> s.instShiftAmt) &&& s.branchMask) |||
            history.globalHistoryReg) &&& s.globalHistoryMask →
          s'.PHTCtr[j]? = s.PHTCtr[j]?) ∧
      s'.PHTCtr.length = s.PHTCtr.length ∧
      s'.globalHistory = s.globalHistory := by
  refine ⟨_, _, CustomBP.update_resolve_eq s tid branchAddr taken history c hc,
    ?_, ?_, ?_, ?_, rfl⟩
  · exact CustomBP.getElem?_set_self_of_some _ _ _ _ hc
  · cases taken <;> rfl
  · intro j hj
    simp [CustomBP.setPHT, CustomBP.PHTIdx, List.getElem?_set, Ne.symm hj]
  · simp [CustomBP.setPHT]

/-- Witness of C2 on the example predictor: address 20, record snapshot 0,
outcome taken (index 5). -/
theorem C2_update_resolve_witness :
    ∃ (s' : CustomBP) (released : Bool),
      examplePredictor.update 0 20 true ⟨0, 0⟩ false = some (s', released) ∧
      s'.PHTCtr[(((20 >>> examplePredictor.instShiftAmt) &&& examplePredictor.branchMask) |||
            (BPHistory.mk 0 0).globalHistoryReg) &&& examplePredictor.globalHistoryMask]?
        = some (if true then (SatCounter8.new 2).increment else (SatCounter8.new 2).decrement) ∧
      (if true then (SatCounter8.new 2).increment else (SatCounter8.new 2).decrement).read
        = (if true then min ((SatCounter8.new 2).read + 1) (2 ^ (SatCounter8.new 2).bits - 1)
            else (SatCounter8.new 2).read - 1) ∧
      (∀ j, j ≠ (((20 >>> examplePredictor.instShiftAmt) &&& examplePredictor.branchMask) |||
            (BPHistory.mk 0 0).globalHistoryReg) &&& examplePredictor.globalHistoryMask →
          s'.PHTCtr[j]? = examplePredictor.PHTCtr[j]?) ∧
      s'.PHTCtr.length = examplePredictor.PHTCtr.length ∧
      s'.globalHistory = examplePredictor.globalHistory :=
  C2_update_resolve examplePredictor 0 20 true ⟨0, 0⟩ (SatCounter8.new 2) (by decide)

/-- C3: `update` with `squashed = true` sets the register of `tid` to
`((snapshot << 1) OR (taken ? 1 : 0)) AND globalHistoryMask`, whatever it held
before, and leaves the PHT unchanged. -/
theorem C3_update_squashed (s : CustomBP) (tid branchAddr : Nat) (taken : Bool)
    (history : BPHistory) (hm : s.globalHistoryMask < 2 ^ 32)
    (htid : tid < s.globalHistory.length) :
    ∃ (s' : CustomBP) (released : Bool),
      s.update tid branchAddr taken history true = some (s', released) ∧
      s'.globalHistory[tid]? = some (((history.globalHistoryReg <<< 1) |||
        (if taken then 1 else 0)) &&& s.globalHistoryMask) ∧
      s'.PHTCtr = s.PHTCtr := by
  refine ⟨_, _, CustomBP.update_squashed_eq s tid branchAddr taken history hm htid, ?_, rfl⟩
  simp [CustomBP.setGH, CustomBP.shiftIn, List.getElem?_set, htid]

/-- Witness of C3 on the example predictor: snapshot 5, outcome taken. -/
theorem C3_update_squashed_witness :
    ∃ (s' : CustomBP) (released : Bool),
      examplePredictor.update 0 20 true ⟨5, 0⟩ true = some (s', released) ∧
      s'.globalHistory[0]? = some ((((BPHistory.mk 5 0).globalHistoryReg <<< 1) |||
        (if true then 1 else 0)) &&& examplePredictor.globalHistoryMask) ∧
      s'.PHTCtr = examplePredictor.PHTCtr :=
  C3_update_squashed examplePredictor 0 20 true ⟨5, 0⟩ (by decide) (by decide)

/-! ## Predict followed by squash -/

namespace CustomBP

theorem PHTIdx_le (s : CustomBP) (branchAddr history : Nat) :
    s.PHTIdx branchAddr history ≤ s.globalHistoryMask :=
  Nat.and_le_right

theorem setGH_setGH_self (s : CustomBP) (tid g v : Nat) (hg : s.globalHistory[tid]? = some g) :
    (s.setGH tid v).setGH tid g = s := by
  have hl : (s.globalHistory.set tid v).set tid g = s.globalHistory := by
    apply List.ext_getElem?
    intro i
    by_cases hi : tid = i
    · subst hi
      rw [getElem?_set_self_of_some _ _ v g (getElem?_set_self_of_some _ _ g v hg), hg]
    · simp [List.getElem?_set, hi]
  cases s
  simp only [setGH] at hl ⊢
  simp [hl]

theorem Ready.setGH {s : CustomBP} {tid : Nat} (h : s.Ready tid) (v : Nat)
    (hv : v ≤ s.globalHistoryMask) : (s.setGH tid v).Ready tid := by
  obtain ⟨hcfg, ⟨g, hg, _⟩, hsz⟩ := h
  exact ⟨hcfg, ⟨v, getElem?_set_self_of_some _ _ g v hg, hv⟩, hsz⟩

theorem shiftIn_le (s : CustomBP) (g : Nat) (taken : Bool) :
    s.shiftIn g taken ≤ s.globalHistoryMask :=
  Nat.and_le_right

theorem lookup_squash (s : CustomBP) (tid branchAddr : Nat) (h : s.Ready tid) :
    ∃ (prediction : Bool) (history : BPHistory) (s' : CustomBP),
      s.lookup tid branchAddr = some (prediction, history, s') ∧
      s'.squash tid history = some (s, true) ∧ s'.Ready tid ∧ s'.PHTCtr = s.PHTCtr := by
  obtain ⟨hcfg, ⟨g, hg, hle⟩, hsz⟩ := h
  have hidx : s.PHTIdx branchAddr g < s.PHTCtr.length :=
    Nat.lt_of_le_of_lt (s.PHTIdx_le branchAddr g) hsz
  have hc : s.PHTCtr[s.PHTIdx branchAddr g]? = some (s.PHTCtr.get ⟨_, hidx⟩) := by
    simp [List.getElem?_eq_getElem hidx]
  refine ⟨_, _, _, lookup_eq s tid branchAddr g _ hcfg.mask_lt hg hc, ?_, ?_, rfl⟩
  · rw [squash_eq _ _ _ (by simpa [CustomBP.setGH] using lt_length_of_getElem? _ _ _ hg)]
    simp [setGH_setGH_self s tid g _ hg]
  · exact Ready.setGH ⟨hcfg, ⟨g, hg, hle⟩, hsz⟩ _ (s.shiftIn_le _ _)

theorem uncondBranch_squash (s : CustomBP) (tid pc : Nat) (h : s.Ready tid) :
    ∃ (history : BPHistory) (s' : CustomBP),
      s.uncondBranch tid pc = some (history, s') ∧
      s'.squash tid history = some (s, true) ∧ s'.Ready tid ∧ s'.PHTCtr = s.PHTCtr := by
  obtain ⟨hcfg, ⟨g, hg, hle⟩, hsz⟩ := h
  have hmask : g &&& s.globalHistoryMask = g := by
    have h1 := hcfg.1
    rw [h1] at hle ⊢
    exact and_mask_of_le g _ hle
  refine ⟨_, _, uncondBranch_eq s tid pc g hcfg.mask_lt hg, ?_, ?_, rfl⟩
  · rw [squash_eq _ _ _ (by simpa [CustomBP.setGH] using lt_length_of_getElem? _ _ _ hg)]
    simp [hmask, setGH_setGH_self s tid g _ hg]
  · exact Ready.setGH ⟨hcfg, ⟨g, hg, hle⟩, hsz⟩ _ (s.shiftIn_le _ _)

end CustomBP

/-- C4: in a predictor state with `globalHistory[tid] <= globalHistoryMask`, any
`lookup` on `tid`, and any `uncondBranch` on `tid`, succeeds, and `squash` with
the record it issued gives back exactly the state before the predict (every
history register and every PHT counter). -/
theorem C4_predict_squash_roundtrip (s : CustomBP) (tid g : Nat) (hcfg : s.Configured)
    (hsz : s.globalHistoryMask < s.PHTCtr.length)
    (hg : s.globalHistory[tid]? = some g) (hle : g ≤ s.globalHistoryMask) :
    (∀ branchAddr, ∃ (prediction : Bool) (history : BPHistory) (s' : CustomBP),
      s.lookup tid branchAddr = some (prediction, history, s') ∧
      s'.squash tid history = some (s, true)) ∧
    (∀ pc, ∃ (history : BPHistory) (s' : CustomBP),
      s.uncondBranch tid pc = some (history, s') ∧
      s'.squash tid history = some (s, true)) := by
  have hr : s.Ready tid := ⟨hcfg, ⟨g, hg, hle⟩, hsz⟩
  constructor
  · intro branchAddr
    obtain ⟨p, h, s', h1, h2, _⟩ := CustomBP.lookup_squash s tid branchAddr hr
    exact ⟨p, h, s', h1, h2⟩
  · intro pc
    obtain ⟨h, s', h1, h2, _⟩ := CustomBP.uncondBranch_squash s tid pc hr
    exact ⟨h, s', h1, h2⟩

/-- Witness of C4 on the example predictor, thread 0 (register 0, mask 15). -/
theorem C4_predict_squash_roundtrip_witness :
    (∀ branchAddr, ∃ (prediction : Bool) (history : BPHistory) (s' : CustomBP),
      examplePredictor.lookup 0 branchAddr = some (prediction, history, s') ∧
      s'.squash 0 history = some (examplePredictor, true)) ∧
    (∀ pc, ∃ (history : BPHistory) (s' : CustomBP),
      examplePredictor.uncondBranch 0 pc = some (history, s') ∧
      s'.squash 0 history = some (examplePredictor, true)) :=
  C4_predict_squash_roundtrip examplePredictor 0 0 (by decide) (by decide) (by decide)
    (by decide)

/-- C5: `uncondBranch` issues a record with `globalPrediction = true` (1) and
`globalHistoryReg = globalHistory[tid] AND globalHistoryMask`, leaves
`((old << 1) OR 1) AND globalHistoryMask` in the register, does not change the
PHT, and gives the same record and register whatever the PHT holds. -/
theorem C5_uncondBranch (s : CustomBP) (tid pc g : Nat) (hm : s.globalHistoryMask < 2 ^ 32)
    (hg : s.globalHistory[tid]? = some g) :
    ∃ (history : BPHistory) (s' : CustomBP),
      s.uncondBranch tid pc = some (history, s') ∧
      history.globalPrediction = 1 ∧
      history.globalHistoryReg = g &&& s.globalHistoryMask ∧
      s'.globalHistory[tid]? = some (((g <<< 1) ||| 1) &&& s.globalHistoryMask) ∧
      s'.PHTCtr = s.PHTCtr ∧
      ∀ pht : List SatCounter8,
        ({ s with PHTCtr := pht } : CustomBP).uncondBranch tid pc
          = some (history, { s' with PHTCtr := pht }) := by
  refine ⟨_, _, CustomBP.uncondBranch_eq s tid pc g hm hg, rfl, rfl, ?_, rfl, ?_⟩
  · simpa [CustomBP.setGH, CustomBP.shiftIn] using
      CustomBP.getElem?_set_self_of_some s.globalHistory tid g _ hg
  · intro pht
    exact CustomBP.uncondBranch_eq { s with PHTCtr := pht } tid pc g hm hg

/-- Witness of C5 on the example predictor, thread 0. -/
theorem C5_uncondBranch_witness :
    ∃ (history : BPHistory) (s' : CustomBP),
      examplePredictor.uncondBranch 0 64 = some (history, s') ∧
      history.globalPrediction = 1 ∧
      history.globalHistoryReg = 0 &&& examplePredictor.globalHistoryMask ∧
      s'.globalHistory[0]? = some (((0 <<< 1) ||| 1) &&& examplePredictor.globalHistoryMask) ∧
      s'.PHTCtr = examplePredictor.PHTCtr ∧
      ∀ pht : List SatCounter8,
        ({ examplePredictor with PHTCtr := pht } : CustomBP).uncondBranch 0 64
          = some (history, { s' with PHTCtr := pht }) :=
  C5_uncondBranch examplePredictor 0 64 0 (by decide) (by decide)

/-! ## Unwinding a run of predicts in reverse order -/

namespace CustomBP

theorem predict_squash (s : CustomBP) (tid : Nat) (p : Predict) (h : s.Ready tid) :
    ∃ (history : BPHistory) (s' : CustomBP),
      s.predict tid p = some (history, s') ∧
      s'.squash tid history = some (s, true) ∧ s'.Ready tid ∧ s'.PHTCtr = s.PHTCtr := by
  cases p with
  | lookup branchAddr =>
    obtain ⟨pr, hi, s', h1, h2, h3, h4⟩ := lookup_squash s tid branchAddr h
    exact ⟨hi, s', by simp [predict, h1], h2, h3, h4⟩
  | uncondBranch pc =>
    obtain ⟨hi, s', h1, h2, h3, h4⟩ := uncondBranch_squash s tid pc h
    exact ⟨hi, s', by simp [predict, h1], h2, h3, h4⟩

theorem squashAll_append (s : CustomBP) (tid : Nat) (xs ys : List BPHistory) :
    squashAll s tid (xs ++ ys)
      = (squashAll s tid xs).bind fun s' => squashAll s' tid ys := by
  induction xs generalizing s with
  | nil => simp [squashAll]
  | cons x xs ih =>
    simp only [List.cons_append, squashAll]
    cases hs : s.squash tid x with
    | none => simp
    | some r => simp [ih]

theorem predictAll_append (s : CustomBP) (tid : Nat) (ps qs : List Predict) :
    predictAll s tid (ps ++ qs)
      = (predictAll s tid ps).bind fun r =>
          (predictAll r.2 tid qs).map fun r' => (r.1 ++ r'.1, r'.2) := by
  induction ps generalizing s with
  | nil =>
    simp only [List.nil_append, predictAll, Option.some_bind, List.nil_append]
    cases predictAll s tid qs <;> simp
  | cons p ps ih =>
    simp only [List.cons_append, predictAll]
    cases hp : s.predict tid p with
    | none => simp
    | some r =>
      obtain ⟨h, s'⟩ := r
      simp only [Option.some_bind, List.append_eq]
      rw [ih s']
      cases h1 : predictAll s' tid ps with
      | none => simp
      | some r1 =>
        obtain ⟨hs, s1⟩ := r1
        simp only [Option.some_bind]
        cases h2 : predictAll s1 tid qs with
        | none => simp
        | some r2 => simp

theorem predictAll_unwind (s : CustomBP) (tid : Nat) (ps : List Predict) (h : s.Ready tid) :
    ∃ (records : List BPHistory) (sn : CustomBP),
      predictAll s tid ps = some (records, sn) ∧ records.length = ps.length ∧
      squashAll sn tid records.reverse = some s ∧ sn.Ready tid ∧ sn.PHTCtr = s.PHTCtr := by
  induction ps generalizing s with
  | nil => exact ⟨[], s, rfl, rfl, rfl, h, rfl⟩
  | cons p ps ih =>
    obtain ⟨hi, s', h1, h2, h3, h4⟩ := predict_squash s tid p h
    obtain ⟨records, sn, k1, k2, k3, k4, k5⟩ := ih s' h3
    refine ⟨hi :: records, sn, ?_, ?_, ?_, k4, ?_⟩
    · simp [predictAll, h1, k1]
    · simp [k2]
    · rw [List.reverse_cons, squashAll_append, k3]
      simp [squashAll, h2]
    · rw [k5, h4]

end CustomBP

/-- C6: from a state with `globalHistory[tid] <= globalHistoryMask`, any sequence
of `n` predict calls on `tid` succeeds and issues `n` records; for every
`j <= n`, squashing the `j` youngest records in reverse order of issue yields
exactly the state reached by the first `n - j` predicts (so the register is the
one immediately before predict `n - j + 1`), whose PHT is the initial one;
after all `n` squashes the state is the initial state. -/
theorem C6_lifo_unwind (s : CustomBP) (tid g : Nat) (hcfg : s.Configured)
    (hsz : s.globalHistoryMask < s.PHTCtr.length)
    (hg : s.globalHistory[tid]? = some g) (hle : g ≤ s.globalHistoryMask)
    (ps : List Predict) :
    ∃ (records : List BPHistory) (sn : CustomBP),
      s.predictAll tid ps = some (records, sn) ∧ records.length = ps.length ∧
      (∀ j, j ≤ ps.length →
        ∃ (older : List BPHistory) (sk : CustomBP),
          s.predictAll tid (ps.take (ps.length - j)) = some (older, sk) ∧
          sn.squashAll tid (records.reverse.take j) = some sk ∧
          sk.PHTCtr = s.PHTCtr) ∧
      sn.squashAll tid records.reverse = some s ∧ sn.PHTCtr = s.PHTCtr := by
  have hr : s.Ready tid := ⟨hcfg, ⟨g, hg, hle⟩, hsz⟩
  obtain ⟨records, sn, k1, k2, k3, _, k5⟩ := CustomBP.predictAll_unwind s tid ps hr
  refine ⟨records, sn, k1, k2, ?_, k3, k5⟩
  intro j hj
  obtain ⟨older, sk, a1, a2, _, a4, a5⟩ :=
    CustomBP.predictAll_unwind s tid (ps.take (ps.length - j)) hr
  obtain ⟨younger, sm, b1, b2, b3, _, _⟩ :=
    CustomBP.predictAll_unwind sk tid (ps.drop (ps.length - j)) a4
  have hsplit := CustomBP.predictAll_append s tid (ps.take (ps.length - j))
    (ps.drop (ps.length - j))
  rw [List.take_append_drop, k1, a1] at hsplit
  simp only [Option.some_bind, b1, Option.map_some', Option.some.injEq, Prod.mk.injEq] at hsplit
  obtain ⟨e1, e2⟩ := hsplit
  refine ⟨older, sk, a1, ?_, a5⟩
  have hlen : younger.reverse.length = j := by
    rw [List.length_reverse, b2, List.length_drop]
    omega
  rw [e1, e2, List.reverse_append, List.take_append_of_le_length (by omega), ← hlen,
    List.take_length]
  exact b3

/-- Witness of C6 on the example predictor: thread 0, three predicts. -/
theorem C6_lifo_unwind_witness :
    ∃ (records : List BPHistory) (sn : CustomBP),
      examplePredictor.predictAll 0 [.lookup 20, .uncondBranch 64, .lookup 8]
        = some (records, sn) ∧
      records.length = [Predict.lookup 20, .uncondBranch 64, .lookup 8].length ∧
      (∀ j, j ≤ [Predict.lookup 20, .uncondBranch 64, .lookup 8].length →
        ∃ (older : List BPHistory) (sk : CustomBP),
          examplePredictor.predictAll 0
              ([Predict.lookup 20, .uncondBranch 64, .lookup 8].take
                ([Predict.lookup 20, .uncondBranch 64, .lookup 8].length - j))
            = some (older, sk) ∧
          sn.squashAll 0 (records.reverse.take j) = some sk ∧
          sk.PHTCtr = examplePredictor.PHTCtr) ∧
      sn.squashAll 0 records.reverse = some examplePredictor ∧
      sn.PHTCtr = examplePredictor.PHTCtr :=
  C6_lifo_unwind examplePredictor 0 0 (by decide) (by decide) (by decide) (by decide)
    [.lookup 20, .uncondBranch 64, .lookup 8]

/-! ## Effect of a single call -/

namespace CustomBP

theorem updateGH_some (s s' : CustomBP) (tid : Nat) (taken : Bool)
    (h : s.updateGH tid taken = some s') :
    ∃ v, v ≤ s.globalHistoryMask ∧ s' = s.setGH tid v := by
  unfold updateGH at h
  cases hg : s.globalHistory[tid]? with
  | none => simp [hg] at h
  | some g =>
    simp only [hg, Option.some.injEq] at h
    exact ⟨_, Nat.and_le_right, h.symm⟩

theorem setGH_setGH (s : CustomBP) (tid a b : Nat) :
    (s.setGH tid a).setGH tid b = s.setGH tid b := by
  simp [setGH, List.set_set]

/-- What a call can do to the state: overwrite one history register, with a
value that is at most the mask or is the snapshot of the record passed in, or
replace one PHT counter by its increment or decrement; a record it issues
holds the register of some thread, raw or masked. -/
theorem step_effect (s s' : CustomBP) (c : Call) (r : Option BPHistory)
    (h : s.step c = some (s', r)) :
    ((∃ (tid v : Nat), s' = s.setGH tid v ∧
        (v ≤ s.globalHistoryMask ∨ ∃ hist, c.record = some hist ∧ v = hist.globalHistoryReg)) ∨
      (∃ (idx : Nat) (c0 : SatCounter8) (taken : Bool), s.PHTCtr[idx]? = some c0 ∧
        s' = s.setPHT idx (if taken then c0.increment else c0.decrement))) ∧
    (∀ hist, r = some hist → ∃ (tid g : Nat), s.globalHistory[tid]? = some g ∧
      (hist.globalHistoryReg = g ∨ hist.globalHistoryReg = g &&& s.globalHistoryMask)) := by
  cases c with
  | uncondBranch tid pc =>
    simp only [step, uncondBranch] at h
    cases hg : s.globalHistory[tid]? with
    | none => simp [hg] at h
    | some g =>
      simp only [hg] at h
      cases hu : s.updateGH tid true with
      | none => simp [hu] at h
      | some s1 =>
        simp only [hu, Option.map_some', Option.some.injEq, Prod.mk.injEq] at h
        obtain ⟨v, hv, hs1⟩ := updateGH_some s s1 tid true hu
        refine ⟨Or.inl ⟨tid, v, by rw [← h.1, hs1], Or.inl hv⟩, ?_⟩
        intro hist hr
        rw [← h.2] at hr
        cases hr
        exact ⟨tid, g, hg, Or.inr rfl⟩
  | lookup tid branchAddr =>
    simp only [step, lookup] at h
    cases hg : s.globalHistory[tid]? with
    | none => simp [hg] at h
    | some g =>
      simp only [hg] at h
      cases hc : s.PHTCtr[s.PHTIdx branchAddr g]? with
      | none => simp [hc] at h
      | some c0 =>
        simp only [hc] at h
        cases hu : s.updateGH tid (decide (c0.read > s.PHTThreshold)) with
        | none => simp [hu] at h
        | some s1 =>
          simp only [hu, Option.map_some', Option.some.injEq, Prod.mk.injEq] at h
          obtain ⟨v, hv, hs1⟩ := updateGH_some s s1 tid _ hu
          refine ⟨Or.inl ⟨tid, v, by rw [← h.1, hs1], Or.inl hv⟩, ?_⟩
          intro hist hr
          rw [← h.2] at hr
          cases hr
          exact ⟨tid, g, hg, Or.inl rfl⟩
  | btbUpdate tid branchAddr =>
    simp only [step, btbUpdate] at h
    cases hg : s.globalHistory[tid]? with
    | none => simp [hg] at h
    | some g =>
      simp only [hg, Option.map_some', Option.some.injEq, Prod.mk.injEq] at h
      refine ⟨Or.inl ⟨tid, _, h.1.symm, Or.inl ?_⟩, ?_⟩
      · exact Nat.le_trans Nat.and_le_right Nat.and_le_left
      · intro hist hr
        rw [← h.2] at hr
        cases hr
  | update tid branchAddr taken history squashed =>
    have hr : r = none := by
      simp only [step] at h
      cases hu : s.update tid branchAddr taken history squashed with
      | none => simp [hu] at h
      | some x =>
        simp only [hu, Option.map_some', Option.some.injEq, Prod.mk.injEq] at h
        exact h.2.symm
    refine ⟨?_, by intro hist hh; rw [hr] at hh; cases hh⟩
    cases squashed with
    | true =>
      simp only [step, update, if_true] at h
      by_cases htid : tid < s.globalHistory.length
      · simp only [htid, if_true] at h
        cases hu : (s.setGH tid history.globalHistoryReg).updateGH tid taken with
        | none => simp [hu] at h
        | some s1 =>
          simp only [hu, Option.map_some', Option.some.injEq, Prod.mk.injEq] at h
          obtain ⟨v, hv, hs1⟩ := updateGH_some _ s1 tid taken hu
          rw [setGH_setGH] at hs1
          exact Or.inl ⟨tid, v, by rw [← h.1, hs1], Or.inl hv⟩
      · simp [htid] at h
    | false =>
      simp only [step, update] at h
      cases hc : s.PHTCtr[s.PHTIdx branchAddr history.globalHistoryReg]? with
      | none => simp [hc] at h
      | some c0 =>
        simp [hc] at h
        exact Or.inr ⟨_, c0, taken, hc, h.1.symm⟩
  | squash tid history =>
    simp only [step, squash] at h
    by_cases htid : tid < s.globalHistory.length
    · simp only [htid, if_true, Option.map_some', Option.some.injEq, Prod.mk.injEq] at h
      refine ⟨Or.inl ⟨tid, _, h.1.symm, Or.inr ⟨history, rfl, rfl⟩⟩, ?_⟩
      intro hist hr
      rw [← h.2] at hr
      cases hr
    · simp [htid] at h

end CustomBP

/-! ## Invariants of reachable states -/

namespace CustomBP

theorem new_ok (params : CustomBPParams) (s0 : CustomBP) (h : CustomBP.new params = .ok s0) :
    params.globalHistoryBits < 32 ∧ 1 ≤ params.PHTCtrBits ∧
    sizeCheckFails params.PredictorSize params.globalHistoryBits = false ∧
    s0.globalHistory = List.replicate params.numThreads 0 ∧
    s0.globalHistoryBits = params.globalHistoryBits ∧
    s0.PredictorSize = params.PredictorSize ∧
    s0.PHTCtrBits = params.PHTCtrBits ∧
    s0.PHTCtr = List.replicate params.PredictorSize (SatCounter8.new params.PHTCtrBits) ∧
    s0.globalHistoryMask = 2 ^ params.globalHistoryBits - 1 ∧
    s0.Configured := by
  unfold CustomBP.new at h
  split_ifs at h with h1 h2 h3
  simp only [Except.ok.injEq] at h
  subst h
  have hb : params.globalHistoryBits < 32 := by omega
  refine ⟨hb, by omega, by simpa using h2, rfl, rfl, rfl, rfl, rfl, ?_, ⟨rfl, rfl, rfl⟩⟩
  show mask params.globalHistoryBits % 2 ^ 32 = _
  rw [mask_mod_eq, Nat.min_eq_left (by omega)]

theorem step_mask_inv (s s' : CustomBP) (c : Call) (r : Option BPHistory)
    (issued : List BPHistory) (h : s.step c = some (s', r))
    (hrec : ∀ hist, c.record = some hist → hist ∈ issued)
    (hgh : ∀ (t g : Nat), s.globalHistory[t]? = some g → g ≤ s.globalHistoryMask)
    (hiss : ∀ hist ∈ issued, hist.globalHistoryReg ≤ s.globalHistoryMask) :
    s'.globalHistoryMask = s.globalHistoryMask ∧
    s'.globalHistory.length = s.globalHistory.length ∧
    (∀ (t g : Nat), s'.globalHistory[t]? = some g → g ≤ s.globalHistoryMask) ∧
    (∀ hist ∈ r.toList ++ issued, hist.globalHistoryReg ≤ s.globalHistoryMask) := by
  obtain ⟨heff, hissue⟩ := step_effect s s' c r h
  have h4 : ∀ hist ∈ r.toList ++ issued, hist.globalHistoryReg ≤ s.globalHistoryMask := by
    intro hist hmem
    rcases List.mem_append.mp hmem with h1 | h2
    · obtain ⟨tid, g, hg, hv⟩ := hissue hist (by simpa using h1)
      rcases hv with hv | hv
      · rw [hv]; exact hgh tid g hg
      · rw [hv]; exact Nat.and_le_right
    · exact hiss hist h2
  rcases heff with ⟨tid, v, rfl, hv⟩ | ⟨idx, c0, taken, _, rfl⟩
  · refine ⟨rfl, by simp [setGH], ?_, h4⟩
    intro t g hg
    have hvle : v ≤ s.globalHistoryMask := by
      rcases hv with hv | ⟨hist, hc, rfl⟩
      · exact hv
      · exact hiss hist (hrec hist hc)
    by_cases ht : tid = t
    · subst ht
      simp only [setGH, List.getElem?_set] at hg
      split_ifs at hg with hlt
      · simp only [if_true, Option.some.injEq] at hg
        rw [← hg]; exact hvle
      · simp at hg
        omega
    · simp only [setGH, List.getElem?_set, ht, if_false] at hg
      exact hgh t g hg
  · exact ⟨rfl, rfl, hgh, h4⟩

theorem run_mask_inv (calls : List Call) (s s2 : CustomBP) (issued issued2 : List BPHistory)
    (hrun : s.run issued calls = some (s2, issued2))
    (hok : s.issuedOnly issued calls = true)
    (hgh : ∀ (t g : Nat), s.globalHistory[t]? = some g → g ≤ s.globalHistoryMask)
    (hiss : ∀ hist ∈ issued, hist.globalHistoryReg ≤ s.globalHistoryMask) :
    s2.globalHistoryMask = s.globalHistoryMask ∧
    s2.globalHistory.length = s.globalHistory.length ∧
    (∀ (t g : Nat), s2.globalHistory[t]? = some g → g ≤ s.globalHistoryMask) ∧
    (∀ hist ∈ issued2, hist.globalHistoryReg ≤ s.globalHistoryMask) := by
  induction calls generalizing s issued with
  | nil =>
    simp only [run, Option.some.injEq, Prod.mk.injEq] at hrun
    obtain ⟨rfl, rfl⟩ := hrun
    exact ⟨rfl, rfl, hgh, hiss⟩
  | cons c cs ih =>
    simp only [run] at hrun
    simp only [issuedOnly, Bool.and_eq_true] at hok
    cases hs : s.step c with
    | none => simp [hs] at hrun
    | some x =>
      obtain ⟨s1, r⟩ := x
      simp only [hs] at hrun hok
      have hrec : ∀ hist, c.record = some hist → hist ∈ issued := by
        intro hist hc
        have := hok.1
        simpa [hc] using this
      obtain ⟨a1, a2, a3, a4⟩ := step_mask_inv s s1 c r issued hs hrec hgh hiss
      have := ih s1 (r.toList ++ issued) hrun hok.2 (by rw [a1]; exact a3) (by rw [a1]; exact a4)
      rw [a1, a2] at this
      exact this

/-- Every state reached from a constructed predictor keeps the constructor's
derived members, table size and number of threads: the hypotheses `Configured`
and `PHTCtr.length = PredictorSize` used below hold in all of them. -/
theorem run_wellformed (calls : List Call) (s s2 : CustomBP) (issued issued2 : List BPHistory)
    (hrun : s.run issued calls = some (s2, issued2)) :
    (s.Configured → s2.Configured) ∧
    s2.PHTCtr.length = s.PHTCtr.length ∧ s2.PredictorSize = s.PredictorSize ∧
    s2.globalHistory.length = s.globalHistory.length ∧
    s2.globalHistoryBits = s.globalHistoryBits ∧ s2.PHTCtrBits = s.PHTCtrBits := by
  induction calls generalizing s issued with
  | nil =>
    simp only [run, Option.some.injEq, Prod.mk.injEq] at hrun
    obtain ⟨rfl, rfl⟩ := hrun
    exact ⟨id, rfl, rfl, rfl, rfl, rfl⟩
  | cons c cs ih =>
    simp only [run] at hrun
    cases hs : s.step c with
    | none => simp [hs] at hrun
    | some x =>
      obtain ⟨s1, r⟩ := x
      simp only [hs] at hrun
      obtain ⟨b1, b2, b3, b4, b5, b6⟩ := ih s1 (r.toList ++ issued) hrun
      obtain ⟨heff, _⟩ := step_effect s s1 c r hs
      rcases heff with ⟨tid, v, rfl, _⟩ | ⟨idx, c0, taken, _, rfl⟩
      · exact ⟨fun h => b1 h, b2, b3, by simpa [setGH] using b4, b5, b6⟩
      · exact ⟨fun h => b1 h, by simpa [setPHT] using b2, b3, b4, b5, b6⟩

theorem updateGHAll_le (outcomes : List Bool) (s : CustomBP) (tid : Nat)
    (htid : tid < s.globalHistory.length)
    (hgh : ∀ g : Nat, s.globalHistory[tid]? = some g → g ≤ s.globalHistoryMask) :
    ∃ (s' : CustomBP) (g : Nat), s.updateGHAll tid outcomes = some s' ∧
      s'.globalHistory[tid]? = some g ∧ g ≤ s.globalHistoryMask := by
  induction outcomes generalizing s with
  | nil =>
    exact ⟨s, s.globalHistory[tid], rfl, List.getElem?_eq_getElem htid,
      hgh _ (List.getElem?_eq_getElem htid)⟩
  | cons taken rest ih =>
    cases hu : s.updateGH tid taken with
    | none =>
      simp [updateGH, List.getElem?_eq_getElem htid] at hu
    | some s1 =>
      obtain ⟨v, hv, rfl⟩ := updateGH_some s s1 tid taken hu
      have hlen : tid < (s.setGH tid v).globalHistory.length := by simpa [setGH] using htid
      obtain ⟨s', g, k1, k2, k3⟩ := ih (s.setGH tid v) hlen (by
        intro g hg
        simp only [setGH, List.getElem?_set, htid, if_true, Option.some.injEq] at hg
        show g ≤ s.globalHistoryMask
        rw [← hg]; exact hv)
      exact ⟨s', g, by simp [updateGHAll, hu, k1], k2, k3⟩

end CustomBP

/-- C7: in every state reached from a freshly constructed predictor by calls of
`uncondBranch`, `lookup`, `btbUpdate`, `update` and `squash` whose records were
all issued earlier in the run, `globalHistoryMask = 2^globalHistoryBits - 1`,
every thread's register and the snapshot of every issued record are at most
the mask, and any further sequence of `updateGH` calls on a thread leaves its
register at most the mask. -/
theorem C7_masking_invariant (params : CustomBPParams) (s0 s : CustomBP)
    (calls : List Call) (issued : List BPHistory)
    (hnew : CustomBP.new params = .ok s0)
    (hrun : s0.run [] calls = some (s, issued))
    (hok : s0.issuedOnly [] calls = true) :
    s.globalHistoryMask = 2 ^ params.globalHistoryBits - 1 ∧
    s.globalHistory.length = params.numThreads ∧
    (∀ (tid g : Nat), s.globalHistory[tid]? = some g → g ≤ s.globalHistoryMask) ∧
    (∀ hist ∈ issued, hist.globalHistoryReg ≤ s.globalHistoryMask) ∧
    (∀ (tid : Nat), tid < params.numThreads → ∀ outcomes : List Bool,
      ∃ (s' : CustomBP) (g : Nat), s.updateGHAll tid outcomes = some s' ∧
        s'.globalHistory[tid]? = some g ∧ g ≤ s.globalHistoryMask) := by
  obtain ⟨_, _, _, hgh0, _, _, _, _, hmask, _⟩ := CustomBP.new_ok params s0 hnew
  have hinit : ∀ (t g : Nat), s0.globalHistory[t]? = some g → g ≤ s0.globalHistoryMask := by
    intro t g hg
    rw [hgh0] at hg
    have hmem := List.getElem?_mem hg
    rw [List.eq_of_mem_replicate hmem]
    exact Nat.zero_le _
  obtain ⟨a1, a2, a3, a4⟩ :=
    CustomBP.run_mask_inv calls s0 s [] issued hrun hok hinit (by simp)
  have hlen : s.globalHistory.length = params.numThreads := by
    rw [a2, hgh0, List.length_replicate]
  rw [← a1] at a3 a4
  refine ⟨by rw [a1, hmask], hlen, a3, a4, ?_⟩
  intro tid htid outcomes
  exact CustomBP.updateGHAll_le outcomes s tid (by omega) (a3 tid)

/-- Witness of C7: the example predictor after `exampleCalls`. -/
theorem C7_masking_invariant_witness :
    exampleFinal.globalHistoryMask = 2 ^ exampleParams.globalHistoryBits - 1 ∧
    exampleFinal.globalHistory.length = exampleParams.numThreads ∧
    (∀ (tid g : Nat), exampleFinal.globalHistory[tid]? = some g →
      g ≤ exampleFinal.globalHistoryMask) ∧
    (∀ hist ∈ [(⟨0, 1⟩ : BPHistory), ⟨0, 1⟩, ⟨0, 0⟩],
      hist.globalHistoryReg ≤ exampleFinal.globalHistoryMask) ∧
    (∀ (tid : Nat), tid < exampleParams.numThreads → ∀ outcomes : List Bool,
      ∃ (s' : CustomBP) (g : Nat), exampleFinal.updateGHAll tid outcomes = some s' ∧
        s'.globalHistory[tid]? = some g ∧ g ≤ exampleFinal.globalHistoryMask) :=
  C7_masking_invariant exampleParams examplePredictor exampleFinal exampleCalls
    [⟨0, 1⟩, ⟨0, 1⟩, ⟨0, 0⟩] (by rfl) (by decide) (by decide)

/-! ## Index bounds and the construction check -/

namespace CustomBP

theorem mask_lt_two_pow (s : CustomBP) (hcfg : s.Configured) :
    s.globalHistoryMask < 2 ^ s.globalHistoryBits := by
  rw [hcfg.1, mask_mod_eq]
  have h1 : 2 ^ (min s.globalHistoryBits 32) ≤ 2 ^ s.globalHistoryBits :=
    Nat.pow_le_pow_right (by norm_num) (Nat.min_le_left _ _)
  have h2 : 0 < 2 ^ (min s.globalHistoryBits 32) := Nat.two_pow_pos _
  omega

theorem toInt32_of_lt (x : Nat) (h : x < 2 ^ 31) : toInt32 x = (x : Int) := by
  have h1 : x % 2 ^ 32 = x := Nat.mod_eq_of_lt (by omega)
  unfold toInt32
  rw [h1, if_pos h]

/-- Inside the range where neither conversion to `int` wraps, the test of line
22 is the mathematical comparison. -/
theorem sizeCheckFails_iff_of_small (PredictorSize globalHistoryBits : Nat)
    (hs : PredictorSize < 2 ^ 31) (hb : globalHistoryBits ≤ 30) :
    sizeCheckFails PredictorSize globalHistoryBits = true
      ↔ PredictorSize < 2 ^ globalHistoryBits := by
  have h1 : 2 ^ globalHistoryBits ≤ 2 ^ 30 := Nat.pow_le_pow_right (by norm_num) hb
  rw [sizeCheckFails, Nat.one_shiftLeft, toInt32_of_lt _ hs, toInt32_of_lt _ (by omega)]
  simp only [decide_eq_true_eq]
  exact_mod_cast Iff.rfl

end CustomBP

/-- C8: in a predictor with `PredictorSize >= 2^globalHistoryBits` the index
`(((branchAddr >> instShiftAmt) AND branchMask) OR history) AND globalHistoryMask`
is below `PredictorSize` for every address and every history value, so `lookup`
on a valid thread and `update` with `squashed = false` never take the
out-of-range branch. -/
theorem C8_index_in_bounds (s : CustomBP) (hcfg : s.Configured)
    (hlen : s.PHTCtr.length = s.PredictorSize)
    (hsize : 2 ^ s.globalHistoryBits ≤ s.PredictorSize) (branchAddr history : Nat) :
    (((branchAddr >>> s.instShiftAmt) &&& s.branchMask) ||| history) &&& s.globalHistoryMask
      < s.PredictorSize ∧
    (∀ tid : Nat, tid < s.globalHistory.length →
      ∃ r, s.lookup tid branchAddr = some r) ∧
    (∀ (tid : Nat) (taken : Bool) (record : BPHistory),
      ∃ r, s.update tid branchAddr taken record false = some r) := by
  have hidx : ∀ hist : Nat, s.PHTIdx branchAddr hist < s.PHTCtr.length := by
    intro hist
    have h1 := s.PHTIdx_le branchAddr hist
    have h2 := s.mask_lt_two_pow hcfg
    omega
  refine ⟨by have := hidx history; rw [hlen] at this; exact this, ?_, ?_⟩
  · intro tid htid
    exact ⟨_, CustomBP.lookup_eq s tid branchAddr _ _ hcfg.mask_lt
      (List.getElem?_eq_getElem htid) (List.getElem?_eq_getElem (hidx _))⟩
  · intro tid taken record
    exact ⟨_, CustomBP.update_resolve_eq s tid branchAddr taken record _
      (List.getElem?_eq_getElem (hidx _))⟩

/-- Witness of C8 on the example predictor (16 counters, 4 history bits). -/
theorem C8_index_in_bounds_witness :
    (((1234 >>> examplePredictor.instShiftAmt) &&& examplePredictor.branchMask) ||| 99)
        &&& examplePredictor.globalHistoryMask < examplePredictor.PredictorSize ∧
    (∀ tid : Nat, tid < examplePredictor.globalHistory.length →
      ∃ r, examplePredictor.lookup tid 1234 = some r) ∧
    (∀ (tid : Nat) (taken : Bool) (record : BPHistory),
      ∃ r, examplePredictor.update tid 1234 taken record false = some r) :=
  C8_index_in_bounds examplePredictor (by decide) (by decide) (by decide) 1234 99

/-- C9 at the failing inputs.  With `PredictorSize = 4` and `globalHistoryBits = 31`
the test of line 22 compares `4` with `static_cast<int>(1 << 31) = -2^31` and
does not fail although `4 < 2^31`: the predictor is built with 4 counters and
mask `2^31 - 1`, and three unconditional branches followed by a lookup index
the table out of range.  With `PredictorSize = 2^31` and `globalHistoryBits = 4`
the test fails although `2^31 >= 2^4`. -/
theorem C9_size_check_signed_overflow :
    CustomBP.sizeCheckFails 4 31 = false ∧ (4 : Nat) < 2 ^ 31 ∧
    toInt32 (1 <<< 31) = -2147483648 ∧
    (∃ s, CustomBP.new smallTableParams = .ok s ∧ s.PHTCtr.length = 4 ∧
      s.globalHistoryMask = 2 ^ 31 - 1 ∧
      s.run [] [.uncondBranch 0 0, .uncondBranch 0 0, .uncondBranch 0 0, .lookup 0 0] = none) ∧
    CustomBP.sizeCheckFails (2 ^ 31) 4 = true ∧ ¬ ((2 : Nat) ^ 31 < 2 ^ 4) := by
  refine ⟨by decide, by decide, by decide, ⟨_, rfl, by decide, by decide, by decide⟩,
    by decide, by decide⟩

/-! ## Counter range and saturation -/

namespace SatCounter8

theorem increment_bits (c : SatCounter8) : c.increment.bits = c.bits := rfl

theorem decrement_bits (c : SatCounter8) : c.decrement.bits = c.bits := rfl

theorem increment_le (c : SatCounter8) : c.increment.counter ≤ 2 ^ c.bits - 1 :=
  Nat.min_le_right _ _

theorem decrement_le (c : SatCounter8) : c.decrement.counter ≤ c.counter :=
  Nat.sub_le _ _

theorem increment_of_max (c : SatCounter8) (h : c.read = 2 ^ c.bits - 1) : c.increment = c := by
  cases c with
  | mk bits counter =>
    simp only [read] at h
    simp [increment, h]

theorem decrement_of_zero (c : SatCounter8) (h : c.read = 0) : c.decrement = c := by
  cases c with
  | mk bits counter =>
    simp only [read] at h
    simp [decrement, h]

end SatCounter8

namespace CustomBP

theorem setPHT_self (s : CustomBP) (idx : Nat) (c : SatCounter8)
    (h : s.PHTCtr[idx]? = some c) : s.setPHT idx c = s := by
  have hl : s.PHTCtr.set idx c = s.PHTCtr := by
    apply List.ext_getElem?
    intro i
    by_cases hi : idx = i
    · subst hi
      rw [getElem?_set_self_of_some _ _ c c h, h]
    · simp [List.getElem?_set, hi]
  cases s
  simp only [setPHT] at hl ⊢
  simp [hl]

theorem step_counter_inv (w : Nat) (s s' : CustomBP) (c : Call) (r : Option BPHistory)
    (h : s.step c = some (s', r))
    (hinv : ∀ c0 ∈ s.PHTCtr, c0.bits = w ∧ c0.counter ≤ 2 ^ w - 1) :
    ∀ c0 ∈ s'.PHTCtr, c0.bits = w ∧ c0.counter ≤ 2 ^ w - 1 := by
  obtain ⟨heff, _⟩ := step_effect s s' c r h
  rcases heff with ⟨tid, v, rfl, _⟩ | ⟨idx, c1, taken, hc1, rfl⟩
  · exact hinv
  · intro c0 hmem
    rcases List.mem_or_eq_of_mem_set hmem with hold | rfl
    · exact hinv c0 hold
    · obtain ⟨hb, hle⟩ := hinv c1 (List.getElem?_mem hc1)
      cases taken
      · refine ⟨hb, ?_⟩
        have := c1.decrement_le
        simp only [Bool.false_eq_true, if_false]
        omega
      · refine ⟨hb, ?_⟩
        have := c1.increment_le
        rw [hb] at this
        simpa using this

theorem run_counter_inv (w : Nat) (calls : List Call) (s s2 : CustomBP)
    (issued issued2 : List BPHistory)
    (hrun : s.run issued calls = some (s2, issued2))
    (hinv : ∀ c0 ∈ s.PHTCtr, c0.bits = w ∧ c0.counter ≤ 2 ^ w - 1) :
    ∀ c0 ∈ s2.PHTCtr, c0.bits = w ∧ c0.counter ≤ 2 ^ w - 1 := by
  induction calls generalizing s issued with
  | nil =>
    simp only [run, Option.some.injEq, Prod.mk.injEq] at hrun
    obtain ⟨rfl, rfl⟩ := hrun
    exact hinv
  | cons c cs ih =>
    simp only [run] at hrun
    cases hs : s.step c with
    | none => simp [hs] at hrun
    | some x =>
      obtain ⟨s1, r⟩ := x
      simp only [hs] at hrun
      exact ih s1 (r.toList ++ issued) hrun (step_counter_inv w s s1 c r hs hinv)

theorem updateRepeat_fixed (s : CustomBP) (tid branchAddr : Nat) (taken : Bool)
    (record : BPHistory)
    (h : s.update tid branchAddr taken record false = some (s, true)) (n : Nat) :
    s.updateRepeat tid branchAddr taken record n = some s := by
  induction n with
  | zero => rfl
  | succ n ih => simp [updateRepeat, h, ih]

end CustomBP

/-- C10: in every state reached from a freshly constructed predictor by any
calls, every PHT counter has width `PHTCtrBits` and a value in
`[0, 2^PHTCtrBits - 1]`; repeating a non-squashed `update` with `taken = true`
on a counter at `2^PHTCtrBits - 1`, or with `taken = false` on a counter at 0,
any number of times leaves the state, hence that counter, as it is.  The
widths 1 to 8 of the claim are among those the constructor accepts. -/
theorem C10_counter_saturation (params : CustomBPParams) (s0 s : CustomBP)
    (calls : List Call) (issued : List BPHistory)
    (hnew : CustomBP.new params = .ok s0)
    (hrun : s0.run [] calls = some (s, issued)) :
    (∀ c ∈ s.PHTCtr, c.bits = params.PHTCtrBits ∧
      0 ≤ c.read ∧ c.read ≤ 2 ^ params.PHTCtrBits - 1) ∧
    (∀ (tid branchAddr : Nat) (record : BPHistory) (c : SatCounter8) (n : Nat),
      s.PHTCtr[s.PHTIdx branchAddr record.globalHistoryReg]? = some c →
      c.read = 2 ^ params.PHTCtrBits - 1 →
      s.updateRepeat tid branchAddr true record n = some s) ∧
    (∀ (tid branchAddr : Nat) (record : BPHistory) (c : SatCounter8) (n : Nat),
      s.PHTCtr[s.PHTIdx branchAddr record.globalHistoryReg]? = some c →
      c.read = 0 →
      s.updateRepeat tid branchAddr false record n = some s) := by
  obtain ⟨_, _, _, _, _, _, _, hpht, _, _⟩ := CustomBP.new_ok params s0 hnew
  have hinit : ∀ c0 ∈ s0.PHTCtr, c0.bits = params.PHTCtrBits ∧
      c0.counter ≤ 2 ^ params.PHTCtrBits - 1 := by
    intro c0 hmem
    rw [hpht] at hmem
    rw [List.eq_of_mem_replicate hmem]
    exact ⟨rfl, Nat.zero_le _⟩
  have hinv := CustomBP.run_counter_inv params.PHTCtrBits calls s0 s [] issued hrun hinit
  refine ⟨fun c hc => ⟨(hinv c hc).1, Nat.zero_le _, (hinv c hc).2⟩, ?_, ?_⟩
  · intro tid branchAddr record c n hc hmax
    apply CustomBP.updateRepeat_fixed
    rw [CustomBP.update_resolve_eq s tid branchAddr true record c hc]
    have hb := (hinv c (List.getElem?_mem hc)).1
    simp only [if_true]
    rw [c.increment_of_max (by rw [hb]; exact hmax), CustomBP.setPHT_self s _ c hc]
  · intro tid branchAddr record c n hc hzero
    apply CustomBP.updateRepeat_fixed
    rw [CustomBP.update_resolve_eq s tid branchAddr false record c hc]
    simp only [Bool.false_eq_true, if_false]
    rw [c.decrement_of_zero hzero, CustomBP.setPHT_self s _ c hc]

/-- Witness of C10: the example predictor (counter width 2) after `exampleCalls`. -/
theorem C10_counter_saturation_witness :
    (∀ c ∈ exampleFinal.PHTCtr, c.bits = exampleParams.PHTCtrBits ∧
      0 ≤ c.read ∧ c.read ≤ 2 ^ exampleParams.PHTCtrBits - 1) ∧
    (∀ (tid branchAddr : Nat) (record : BPHistory) (c : SatCounter8) (n : Nat),
      exampleFinal.PHTCtr[exampleFinal.PHTIdx branchAddr record.globalHistoryReg]? = some c →
      c.read = 2 ^ exampleParams.PHTCtrBits - 1 →
      exampleFinal.updateRepeat tid branchAddr true record n = some exampleFinal) ∧
    (∀ (tid branchAddr : Nat) (record : BPHistory) (c : SatCounter8) (n : Nat),
      exampleFinal.PHTCtr[exampleFinal.PHTIdx branchAddr record.globalHistoryReg]? = some c →
      c.read = 0 →
      exampleFinal.updateRepeat tid branchAddr false record n = some exampleFinal) :=
  C10_counter_saturation exampleParams examplePredictor exampleFinal exampleCalls
    [⟨0, 1⟩, ⟨0, 1⟩, ⟨0, 0⟩] (by rfl) (by decide)

/-! ## BTB-miss notification -/

theorem testBit_not_one (i : Nat) :
    (2 ^ 64 - 2).testBit i = (decide (i < 64) && decide (i ≠ 0)) := by
  have h : (2 ^ 64 - 2 : Nat) = (2 ^ 63 - 1) <<< 1 := by decide
  rw [h, Nat.testBit_shiftLeft, Nat.testBit_two_pow_sub_one]
  by_cases h0 : i = 0
  · subst h0; simp
  · have h1 : 1 ≤ i := Nat.one_le_iff_ne_zero.mpr h0
    by_cases h2 : i < 64
    · have h3 : i - 1 < 63 := by omega
      simp [h0, h1, h2, h3]
    · have h3 : ¬ (i - 1 < 63) := by omega
      simp [h0, h1, h2, h3]

theorem testBit_clearLast (g m i : Nat) (hm : m < 2 ^ 32) :
    (g &&& (m &&& (2 ^ 64 - 2))).testBit i
      = (g.testBit i && m.testBit i && decide (i ≠ 0)) := by
  rw [Nat.testBit_and, Nat.testBit_and, testBit_not_one]
  by_cases h : i < 64
  · simp [h, Bool.and_assoc]
  · have hlt : m < 2 ^ i :=
      Nat.lt_of_lt_of_le hm (Nat.pow_le_pow_right (by norm_num) (by omega))
    simp [h, Nat.testBit_lt_two_pow hlt]

namespace CustomBP

theorem btbUpdate_eq (s : CustomBP) (tid branchAddr g : Nat)
    (hg : s.globalHistory[tid]? = some g) :
    s.btbUpdate tid branchAddr
      = some (s.setGH tid (g &&& (s.globalHistoryMask &&& (2 ^ 64 - 2)))) := by
  simp [btbUpdate, hg]

theorem setGH_getElem?_self (s : CustomBP) (tid g v : Nat)
    (hg : s.globalHistory[tid]? = some g) : (s.setGH tid v).globalHistory[tid]? = some v :=
  getElem?_set_self_of_some _ _ g v hg

theorem setGH_getElem?_ne (s : CustomBP) (tid t v : Nat) (h : t ≠ tid) :
    (s.setGH tid v).globalHistory[t]? = s.globalHistory[t]? := by
  simp [setGH, List.getElem?_set, Ne.symm h]

end CustomBP

/-- C11: `btbUpdate` replaces the register of `tid` by `old AND (globalHistoryMask
AND NOT 1)`: bit 0 is 0 afterwards, every bit at a position from 1 to
`globalHistoryBits - 1` keeps its value, the other threads' registers and the
PHT are unchanged; applied directly after `updateGH(tid, true)` it clears bit 0
and keeps every other bit of the shifted register. -/
theorem C11_btbUpdate_clears_last_bit (s : CustomBP) (tid branchAddr g : Nat)
    (hcfg : s.Configured) (hbits : s.globalHistoryBits ≤ 32)
    (hg : s.globalHistory[tid]? = some g) :
    (∃ (s' : CustomBP) (g' : Nat),
      s.btbUpdate tid branchAddr = some s' ∧ s'.globalHistory[tid]? = some g' ∧
      (∀ i, g'.testBit i = (g.testBit i && s.globalHistoryMask.testBit i && decide (i ≠ 0))) ∧
      g'.testBit 0 = false ∧
      (∀ i, 1 ≤ i → i < s.globalHistoryBits → g'.testBit i = g.testBit i) ∧
      (∀ t : Nat, t ≠ tid → s'.globalHistory[t]? = s.globalHistory[t]?) ∧
      s'.PHTCtr = s.PHTCtr) ∧
    (∃ (s1 s2 : CustomBP) (v v' : Nat),
      s.updateGH tid true = some s1 ∧ s1.globalHistory[tid]? = some v ∧
      s1.btbUpdate tid branchAddr = some s2 ∧ s2.globalHistory[tid]? = some v' ∧
      v'.testBit 0 = false ∧ (∀ i, i ≠ 0 → v'.testBit i = v.testBit i)) := by
  have hm := hcfg.mask_lt
  have hmask : ∀ i, s.globalHistoryMask.testBit i = decide (i < s.globalHistoryBits) := by
    intro i
    rw [hcfg.1, mask_mod_eq, Nat.min_eq_left hbits, Nat.testBit_two_pow_sub_one]
  constructor
  · refine ⟨_, _, CustomBP.btbUpdate_eq s tid branchAddr g hg,
      CustomBP.setGH_getElem?_self s tid g _ hg, fun i => testBit_clearLast g _ i hm, ?_, ?_,
      fun t ht => CustomBP.setGH_getElem?_ne s tid t _ ht, rfl⟩
    · rw [testBit_clearLast g _ 0 hm]; simp
    · intro i h1 h2
      rw [testBit_clearLast g _ i hm, hmask i]
      have h0 : i ≠ 0 := by omega
      simp [h0, h2]
  · have hv := CustomBP.setGH_getElem?_self s tid g (s.shiftIn g true) hg
    refine ⟨_, _, _, _, CustomBP.updateGH_eq s tid g true hm hg, hv,
      CustomBP.btbUpdate_eq (s.setGH tid (s.shiftIn g true)) tid branchAddr _ hv,
      CustomBP.setGH_getElem?_self _ tid _ _ hv, ?_, ?_⟩
    · show (_ &&& (s.globalHistoryMask &&& (2 ^ 64 - 2))).testBit 0 = false
      rw [testBit_clearLast _ _ 0 hm]; simp
    · intro i h0
      show (_ &&& (s.globalHistoryMask &&& (2 ^ 64 - 2))).testBit i = _
      rw [testBit_clearLast _ _ i hm]
      simp only [CustomBP.shiftIn, Nat.testBit_and, h0]
      cases (s.globalHistoryMask.testBit i) <;> simp [h0]

/-- Witness of C11 on the example predictor, thread 0 (register 0). -/
theorem C11_btbUpdate_clears_last_bit_witness :
    (∃ (s' : CustomBP) (g' : Nat),
      examplePredictor.btbUpdate 0 20 = some s' ∧ s'.globalHistory[0]? = some g' ∧
      (∀ i, g'.testBit i
        = ((0 : Nat).testBit i && examplePredictor.globalHistoryMask.testBit i &&
            decide (i ≠ 0))) ∧
      g'.testBit 0 = false ∧
      (∀ i, 1 ≤ i → i < examplePredictor.globalHistoryBits →
        g'.testBit i = (0 : Nat).testBit i) ∧
      (∀ t : Nat, t ≠ 0 → s'.globalHistory[t]? = examplePredictor.globalHistory[t]?) ∧
      s'.PHTCtr = examplePredictor.PHTCtr) ∧
    (∃ (s1 s2 : CustomBP) (v v' : Nat),
      examplePredictor.updateGH 0 true = some s1 ∧ s1.globalHistory[0]? = some v ∧
      s1.btbUpdate 0 20 = some s2 ∧ s2.globalHistory[0]? = some v' ∧
      v'.testBit 0 = false ∧ (∀ i, i ≠ 0 → v'.testBit i = v.testBit i)) :=
  C11_btbUpdate_clears_last_bit examplePredictor 0 20 0 (by decide) (by decide) (by decide)

/-! ## Which register and which counter a call writes -/

namespace CustomBP

theorem updateGH_total (s : CustomBP) (tid : Nat) (taken : Bool)
    (htid : tid < s.globalHistory.length) :
    ∃ v, v ≤ s.globalHistoryMask ∧ s.updateGH tid taken = some (s.setGH tid v) := by
  cases hu : s.updateGH tid taken with
  | none => simp [updateGH, List.getElem?_eq_getElem htid] at hu
  | some s1 =>
    obtain ⟨v, hv, rfl⟩ := updateGH_some s s1 tid taken hu
    exact ⟨v, hv, rfl⟩

/-- A call that returns either overwrites the history register of its own
thread, or is an `update` with `squashed = false` and replaces the counter at
its index by the increment or decrement. -/
theorem step_shape (s s' : CustomBP) (c : Call) (r : Option BPHistory)
    (h : s.step c = some (s', r)) :
    (∃ v : Nat, s' = s.setGH c.tid v) ∨
    (∃ (tid branchAddr : Nat) (taken : Bool) (history : BPHistory) (c0 : SatCounter8),
      c = .update tid branchAddr taken history false ∧
      s.PHTCtr[s.PHTIdx branchAddr history.globalHistoryReg]? = some c0 ∧
      s' = s.setPHT (s.PHTIdx branchAddr history.globalHistoryReg)
        (if taken then c0.increment else c0.decrement)) := by
  cases c with
  | uncondBranch tid pc =>
    simp only [step, uncondBranch] at h
    cases hg : s.globalHistory[tid]? with
    | none => simp [hg] at h
    | some g =>
      simp only [hg] at h
      cases hu : s.updateGH tid true with
      | none => simp [hu] at h
      | some s1 =>
        simp only [hu, Option.map_some', Option.some.injEq, Prod.mk.injEq] at h
        obtain ⟨v, _, hs1⟩ := updateGH_some s s1 tid true hu
        exact Or.inl ⟨v, by rw [← h.1, hs1]; rfl⟩
  | lookup tid branchAddr =>
    simp only [step, lookup] at h
    cases hg : s.globalHistory[tid]? with
    | none => simp [hg] at h
    | some g =>
      simp only [hg] at h
      cases hc : s.PHTCtr[s.PHTIdx branchAddr g]? with
      | none => simp [hc] at h
      | some c0 =>
        simp only [hc] at h
        cases hu : s.updateGH tid (decide (c0.read > s.PHTThreshold)) with
        | none => simp [hu] at h
        | some s1 =>
          simp only [hu, Option.map_some', Option.some.injEq, Prod.mk.injEq] at h
          obtain ⟨v, _, hs1⟩ := updateGH_some s s1 tid _ hu
          exact Or.inl ⟨v, by rw [← h.1, hs1]; rfl⟩
  | btbUpdate tid branchAddr =>
    simp only [step, btbUpdate] at h
    cases hg : s.globalHistory[tid]? with
    | none => simp [hg] at h
    | some g =>
      simp only [hg, Option.map_some', Option.some.injEq, Prod.mk.injEq] at h
      exact Or.inl ⟨_, h.1.symm⟩
  | update tid branchAddr taken history squashed =>
    cases squashed with
    | true =>
      simp only [step, update, if_true] at h
      by_cases htid : tid < s.globalHistory.length
      · simp only [htid, if_true] at h
        cases hu : (s.setGH tid history.globalHistoryReg).updateGH tid taken with
        | none => simp [hu] at h
        | some s1 =>
          simp only [hu, Option.map_some', Option.some.injEq, Prod.mk.injEq] at h
          obtain ⟨v, _, hs1⟩ := updateGH_some _ s1 tid taken hu
          rw [setGH_setGH] at hs1
          exact Or.inl ⟨v, by rw [← h.1, hs1]; rfl⟩
      · simp [htid] at h
    | false =>
      simp only [step, update] at h
      cases hc : s.PHTCtr[s.PHTIdx branchAddr history.globalHistoryReg]? with
      | none => simp [hc] at h
      | some c0 =>
        simp [hc] at h
        exact Or.inr ⟨tid, branchAddr, taken, history, c0, rfl, hc, h.1.symm⟩
  | squash tid history =>
    simp only [step, squash] at h
    by_cases htid : tid < s.globalHistory.length
    · simp only [htid, if_true, Option.map_some', Option.some.injEq, Prod.mk.injEq] at h
      exact Or.inl ⟨_, h.1.symm⟩
    · simp [htid] at h

/-- A call on a valid thread of a predictor whose table is longer than the
mask returns a result. -/
theorem step_total (s : CustomBP) (c : Call) (htid : c.tid < s.globalHistory.length)
    (hsz : s.globalHistoryMask < s.PHTCtr.length) :
    ∃ (s' : CustomBP) (r : Option BPHistory), s.step c = some (s', r) := by
  have hg := List.getElem?_eq_getElem htid
  have hidx : ∀ a h : Nat, ∃ c0, s.PHTCtr[s.PHTIdx a h]? = some c0 := fun a h =>
    ⟨_, List.getElem?_eq_getElem (Nat.lt_of_le_of_lt (s.PHTIdx_le a h) hsz)⟩
  cases c with
  | uncondBranch tid pc =>
    obtain ⟨v, _, hu⟩ := updateGH_total s tid true htid
    exact ⟨_, _, by simp only [step, uncondBranch, Call.tid] at hg ⊢; rw [hg, hu]; rfl⟩
  | lookup tid branchAddr =>
    obtain ⟨g, hg'⟩ : ∃ g : Nat, s.globalHistory[tid]? = some g := ⟨_, hg⟩
    obtain ⟨c0, hc⟩ := hidx branchAddr g
    obtain ⟨v, _, hu⟩ := updateGH_total s tid (decide (c0.read > s.PHTThreshold)) htid
    exact ⟨_, _, by simp only [step, lookup, hg', hc]; rw [hu]; rfl⟩
  | btbUpdate tid branchAddr =>
    exact ⟨_, _, by simp only [step, btbUpdate, Call.tid] at hg ⊢; rw [hg]; rfl⟩
  | update tid branchAddr taken history squashed =>
    cases squashed with
    | true =>
      have htid' : tid < (s.setGH tid history.globalHistoryReg).globalHistory.length := by
        simpa [setGH, Call.tid] using htid
      obtain ⟨v, _, hu⟩ := updateGH_total (s.setGH tid history.globalHistoryReg) tid taken htid'
      have htid2 : tid < s.globalHistory.length := htid
      exact ⟨_, _, by simp only [step, update, if_true, htid2]; rw [hu]; rfl⟩
    | false =>
      obtain ⟨c0, hc⟩ := hidx branchAddr history.globalHistoryReg
      exact ⟨_, _, by simp only [step]; rw [update_resolve_eq s tid branchAddr taken history c0 hc]; rfl⟩
  | squash tid history =>
    have htid2 : tid < s.globalHistory.length := htid
    exact ⟨_, _, by simp only [step]; rw [squash_eq s tid history htid2]; rfl⟩

end CustomBP

/-! ## Release of history records -/

/-- C15, as stated, fails: on the example predictor `update` with
`squashed = true` on the record `{0, 0}` (the one `lookup 0 20` issues) returns
without executing `delete history`. -/
theorem C15_counterexample :
    examplePredictor.lookup 0 20 = some (false, ⟨0, 0⟩, examplePredictor) ∧
    (examplePredictor.update 0 20 true ⟨0, 0⟩ true).map Prod.snd = some false := by
  decide

/-- C15, amended: on a valid thread of a predictor whose table is longer than
the mask, `update` with `squashed = false` and `squash` release the record
they receive, while `update` with `squashed = true` returns without releasing
it (the record stays live). -/
theorem C15_record_release (s : CustomBP) (tid branchAddr : Nat) (taken : Bool)
    (history : BPHistory) (htid : tid < s.globalHistory.length)
    (hsz : s.globalHistoryMask < s.PHTCtr.length) :
    (∃ s', s.update tid branchAddr taken history false = some (s', true)) ∧
    (∃ s', s.squash tid history = some (s', true)) ∧
    (∃ s', s.update tid branchAddr taken history true = some (s', false)) := by
  refine ⟨?_, ⟨_, CustomBP.squash_eq s tid history htid⟩, ?_⟩
  · have hidx := Nat.lt_of_le_of_lt (s.PHTIdx_le branchAddr history.globalHistoryReg) hsz
    exact ⟨_, CustomBP.update_resolve_eq s tid branchAddr taken history _
      (List.getElem?_eq_getElem hidx)⟩
  · have htid' : tid < (s.setGH tid history.globalHistoryReg).globalHistory.length := by
      simpa [CustomBP.setGH] using htid
    obtain ⟨v, _, hu⟩ :=
      CustomBP.updateGH_total (s.setGH tid history.globalHistoryReg) tid taken htid'
    exact ⟨_, by simp only [CustomBP.update, if_true, htid]; rw [hu]; rfl⟩

/-- Witness of the amended C15 on the example predictor. -/
theorem C15_record_release_witness :
    (∃ s', examplePredictor.update 0 20 true ⟨0, 0⟩ false = some (s', true)) ∧
    (∃ s', examplePredictor.squash 0 ⟨0, 0⟩ = some (s', true)) ∧
    (∃ s', examplePredictor.update 0 20 true ⟨0, 0⟩ true = some (s', false)) :=
  C15_record_release examplePredictor 0 20 true ⟨0, 0⟩ (by decide) (by decide)

/-! ## Thread isolation -/

/-- C16: a call made for thread `tid` that returns leaves the register of every
other thread unchanged, and on a valid thread of a predictor whose table is
longer than the mask every call returns; a freshly constructed predictor has
`numThreads` registers, all 0. -/
theorem C16_thread_isolation (s : CustomBP) (c : Call) :
    (∀ (s' : CustomBP) (r : Option BPHistory), s.step c = some (s', r) →
      ∀ t : Nat, t ≠ c.tid → s'.globalHistory[t]? = s.globalHistory[t]?) ∧
    (c.tid < s.globalHistory.length → s.globalHistoryMask < s.PHTCtr.length →
      ∃ (s' : CustomBP) (r : Option BPHistory), s.step c = some (s', r)) ∧
    (∀ (params : CustomBPParams) (s0 : CustomBP), CustomBP.new params = .ok s0 →
      s0.globalHistory.length = params.numThreads ∧
      ∀ t : Nat, t < params.numThreads → s0.globalHistory[t]? = some 0) := by
  refine ⟨?_, CustomBP.step_total s c, ?_⟩
  · intro s' r h t ht
    rcases CustomBP.step_shape s s' c r h with ⟨v, rfl⟩ | ⟨_, _, _, _, _, _, _, rfl⟩
    · exact CustomBP.setGH_getElem?_ne s c.tid t v ht
    · rfl
  · intro params s0 hnew
    obtain ⟨_, _, _, hgh, _⟩ := CustomBP.new_ok params s0 hnew
    rw [hgh]
    exact ⟨List.length_replicate _ _, fun t ht => List.getElem?_replicate_of_lt ht⟩

/-- Witness of C16: a two-thread state, a `squash` on thread 0, and the example
construction. -/
theorem C16_thread_isolation_witness :
    (∀ t : Nat, t ≠ 0 →
      (twoThreadPredictor.setGH 0 9).globalHistory[t]? = twoThreadPredictor.globalHistory[t]?) ∧
    (∃ (s' : CustomBP) (r : Option BPHistory),
      twoThreadPredictor.step (.squash 0 ⟨9, 0⟩) = some (s', r)) ∧
    (examplePredictor.globalHistory.length = exampleParams.numThreads ∧
      ∀ t : Nat, t < exampleParams.numThreads → examplePredictor.globalHistory[t]? = some 0) :=
  ⟨(C16_thread_isolation twoThreadPredictor (.squash 0 ⟨9, 0⟩)).1
      (twoThreadPredictor.setGH 0 9) none (by decide),
    (C16_thread_isolation twoThreadPredictor (.squash 0 ⟨9, 0⟩)).2.1 (by decide) (by decide),
    (C16_thread_isolation twoThreadPredictor (.squash 0 ⟨9, 0⟩)).2.2
      exampleParams examplePredictor (by rfl)⟩

/-! ## Agreement of the predict and resolve indices -/

namespace CustomBP

theorem PHTIdx_and_mask (s : CustomBP) (branchAddr g : Nat) :
    s.PHTIdx branchAddr (g &&& s.globalHistoryMask) = s.PHTIdx branchAddr g := by
  apply Nat.eq_of_testBit_eq
  intro i
  simp only [PHTIdx, Nat.testBit_and, Nat.testBit_or]
  cases (((branchAddr >>> s.instShiftAmt).testBit i && s.branchMask.testBit i)) <;>
    cases (g.testBit i) <;> cases (s.globalHistoryMask.testBit i) <;> rfl

theorem step_config (s s' : CustomBP) (c : Call) (r : Option BPHistory)
    (h : s.step c = some (s', r)) :
    (∀ a g : Nat, s'.PHTIdx a g = s.PHTIdx a g) ∧ s'.PHTThreshold = s.PHTThreshold ∧
    s'.globalHistoryMask = s.globalHistoryMask ∧ s'.PHTCtr.length = s.PHTCtr.length := by
  rcases step_shape s s' c r h with ⟨v, rfl⟩ | ⟨_, _, _, _, _, _, _, rfl⟩
  · exact ⟨fun _ _ => rfl, rfl, rfl, rfl⟩
  · exact ⟨fun _ _ => rfl, rfl, rfl, by simp [setPHT]⟩

theorem run_config (calls : List Call) (s s2 : CustomBP) (issued issued2 : List BPHistory)
    (hrun : s.run issued calls = some (s2, issued2)) :
    (∀ a g : Nat, s2.PHTIdx a g = s.PHTIdx a g) ∧ s2.PHTThreshold = s.PHTThreshold ∧
    s2.globalHistoryMask = s.globalHistoryMask ∧ s2.PHTCtr.length = s.PHTCtr.length := by
  induction calls generalizing s issued with
  | nil =>
    simp only [run, Option.some.injEq, Prod.mk.injEq] at hrun
    obtain ⟨rfl, rfl⟩ := hrun
    exact ⟨fun _ _ => rfl, rfl, rfl, rfl⟩
  | cons c cs ih =>
    simp only [run] at hrun
    cases hs : s.step c with
    | none => simp [hs] at hrun
    | some x =>
      obtain ⟨s1, r⟩ := x
      simp only [hs] at hrun
      obtain ⟨a1, a2, a3, a4⟩ := step_config s s1 c r hs
      obtain ⟨b1, b2, b3, b4⟩ := ih s1 (r.toList ++ issued) hrun
      exact ⟨fun a g => by rw [b1, a1], by rw [b2, a2], by rw [b3, a3], by rw [b4, a4]⟩

/-- After any calls from `s1`, a non-squashed `update` with a record whose
snapshot indexes like `g` writes the counter at the index `s1` computes from
`g`. -/
theorem update_after_run (s1 s2 : CustomBP) (calls : List Call) (issued issued2 : List BPHistory)
    (hrun : s1.run issued calls = some (s2, issued2))
    (hsz : s1.globalHistoryMask < s1.PHTCtr.length)
    (tid branchAddr g : Nat) (taken : Bool) (record : BPHistory)
    (hrec : s1.PHTIdx branchAddr record.globalHistoryReg = s1.PHTIdx branchAddr g) :
    ∃ c2 : SatCounter8, s2.PHTCtr[s1.PHTIdx branchAddr g]? = some c2 ∧
      s2.update tid branchAddr taken record false
        = some (s2.setPHT (s1.PHTIdx branchAddr g)
            (if taken then c2.increment else c2.decrement), true) := by
  obtain ⟨b1, _, _, b4⟩ := run_config calls s1 s2 issued issued2 hrun
  have hidx : s1.PHTIdx branchAddr g < s2.PHTCtr.length := by
    rw [b4]; exact Nat.lt_of_le_of_lt (s1.PHTIdx_le branchAddr g) hsz
  have hc2 := List.getElem?_eq_getElem hidx
  refine ⟨_, hc2, ?_⟩
  have hi : s2.PHTIdx branchAddr record.globalHistoryReg = s1.PHTIdx branchAddr g := by
    rw [b1, hrec]
  have := update_resolve_eq s2 tid branchAddr taken record _ (by rw [hi]; exact hc2)
  rw [hi] at this
  exact this

end CustomBP

/-- C17: `lookup` decides from the counter at the index computed from the address
and the pre-prediction register `g`; whatever calls follow, an `update` with
`squashed = false`, the same address and the issued record replaces the
counter at that same index by its increment or decrement.  The same holds for
the record of `uncondBranch` (whose snapshot is masked). -/
theorem C17_index_agreement (s : CustomBP) (tid branchAddr g : Nat)
    (hm : s.globalHistoryMask < 2 ^ 32) (hsz : s.globalHistoryMask < s.PHTCtr.length)
    (hg : s.globalHistory[tid]? = some g) :
    (∃ (c : SatCounter8) (record : BPHistory) (s1 : CustomBP),
      s.PHTCtr[s.PHTIdx branchAddr g]? = some c ∧
      s.lookup tid branchAddr = some (decide (c.read > s.PHTThreshold), record, s1) ∧
      ∀ (calls : List Call) (issued issued2 : List BPHistory) (s2 : CustomBP),
        s1.run issued calls = some (s2, issued2) →
        ∀ (tid' : Nat) (taken : Bool),
          ∃ c2 : SatCounter8, s2.PHTCtr[s.PHTIdx branchAddr g]? = some c2 ∧
            s2.update tid' branchAddr taken record false
              = some (s2.setPHT (s.PHTIdx branchAddr g)
                  (if taken then c2.increment else c2.decrement), true)) ∧
    (∃ (record : BPHistory) (s1 : CustomBP),
      s.uncondBranch tid branchAddr = some (record, s1) ∧
      ∀ (calls : List Call) (issued issued2 : List BPHistory) (s2 : CustomBP),
        s1.run issued calls = some (s2, issued2) →
        ∀ (tid' : Nat) (taken : Bool),
          ∃ c2 : SatCounter8, s2.PHTCtr[s.PHTIdx branchAddr g]? = some c2 ∧
            s2.update tid' branchAddr taken record false
              = some (s2.setPHT (s.PHTIdx branchAddr g)
                  (if taken then c2.increment else c2.decrement), true)) := by
  have hidx := Nat.lt_of_le_of_lt (s.PHTIdx_le branchAddr g) hsz
  have hc := List.getElem?_eq_getElem hidx
  constructor
  · refine ⟨_, _, _, hc, CustomBP.lookup_eq s tid branchAddr g _ hm hg hc, ?_⟩
    intro calls issued issued2 s2 hrun tid' taken
    exact CustomBP.update_after_run _ s2 calls issued issued2 hrun hsz tid' branchAddr g taken _ rfl
  · refine ⟨_, _, CustomBP.uncondBranch_eq s tid branchAddr g hm hg, ?_⟩
    intro calls issued issued2 s2 hrun tid' taken
    exact CustomBP.update_after_run _ s2 calls issued issued2 hrun hsz tid' branchAddr g taken _
      (s.PHTIdx_and_mask branchAddr g)

/-- Witness of C17 on the example predictor: thread 0, address 20 (index 5). -/
theorem C17_index_agreement_witness :
    (∃ (c : SatCounter8) (record : BPHistory) (s1 : CustomBP),
      examplePredictor.PHTCtr[examplePredictor.PHTIdx 20 0]? = some c ∧
      examplePredictor.lookup 0 20
        = some (decide (c.read > examplePredictor.PHTThreshold), record, s1) ∧
      ∀ (calls : List Call) (issued issued2 : List BPHistory) (s2 : CustomBP),
        s1.run issued calls = some (s2, issued2) →
        ∀ (tid' : Nat) (taken : Bool),
          ∃ c2 : SatCounter8, s2.PHTCtr[examplePredictor.PHTIdx 20 0]? = some c2 ∧
            s2.update tid' 20 taken record false
              = some (s2.setPHT (examplePredictor.PHTIdx 20 0)
                  (if taken then c2.increment else c2.decrement), true)) ∧
    (∃ (record : BPHistory) (s1 : CustomBP),
      examplePredictor.uncondBranch 0 20 = some (record, s1) ∧
      ∀ (calls : List Call) (issued issued2 : List BPHistory) (s2 : CustomBP),
        s1.run issued calls = some (s2, issued2) →
        ∀ (tid' : Nat) (taken : Bool),
          ∃ c2 : SatCounter8, s2.PHTCtr[examplePredictor.PHTIdx 20 0]? = some c2 ∧
            s2.update tid' 20 taken record false
              = some (s2.setPHT (examplePredictor.PHTIdx 20 0)
                  (if taken then c2.increment else c2.decrement), true)) :=
  C17_index_agreement examplePredictor 0 20 0 (by decide) (by decide) (by decide)

/-! ## Training of one counter -/

namespace CustomBP

theorem hit_congr (s s' : CustomBP) (i : Nat) (c : Call)
    (h : ∀ a g : Nat, s'.PHTIdx a g = s.PHTIdx a g) : c.hit s' i = c.hit s i := by
  cases c with
  | update tid branchAddr taken history squashed =>
    cases squashed
    · simp only [Call.hit, h]
    · rfl
  | _ => rfl

theorem takenHits_congr (s s' : CustomBP) (i : Nat) (calls : List Call)
    (h : ∀ a g : Nat, s'.PHTIdx a g = s.PHTIdx a g) : takenHits s' i calls = takenHits s i calls := by
  unfold takenHits
  congr 1
  funext c
  rw [hit_congr s s' i c h]

theorem step_hit_none (s s' : CustomBP) (c : Call) (r : Option BPHistory) (i : Nat)
    (h : s.step c = some (s', r)) (hhit : c.hit s i = none) :
    s'.PHTCtr[i]? = s.PHTCtr[i]? := by
  rcases step_shape s s' c r h with ⟨v, rfl⟩ | ⟨tid, a, t, hist, c0, rfl, _, rfl⟩
  · rfl
  · simp only [Call.hit] at hhit
    split_ifs at hhit with hne
    simp [setPHT, List.getElem?_set, hne]

theorem step_hit_some (s s' : CustomBP) (c : Call) (r : Option BPHistory) (i : Nat)
    (taken : Bool) (h : s.step c = some (s', r)) (hhit : c.hit s i = some taken) :
    ∃ c0 : SatCounter8, s.PHTCtr[i]? = some c0 ∧
      s'.PHTCtr[i]? = some (if taken then c0.increment else c0.decrement) := by
  cases c with
  | update tid a t hist squashed =>
    cases squashed
    · simp only [Call.hit] at hhit
      split_ifs at hhit with hidx
      simp only [Option.some.injEq] at hhit
      subst hhit
      cases hc : s.PHTCtr[s.PHTIdx a hist.globalHistoryReg]? with
      | none => simp [step, update, hc] at h
      | some c0 =>
        simp only [step] at h
        rw [update_resolve_eq s tid a t hist c0 hc] at h
        simp only [Option.map_some', Option.some.injEq, Prod.mk.injEq] at h
        rw [hidx] at hc h
        refine ⟨c0, hc, ?_⟩
        rw [← h.1]
        exact getElem?_set_self_of_some _ _ _ _ hc
    · simp [Call.hit] at hhit
  | uncondBranch _ _ => simp [Call.hit] at hhit
  | lookup _ _ => simp [Call.hit] at hhit
  | btbUpdate _ _ => simp [Call.hit] at hhit
  | squash _ _ => simp [Call.hit] at hhit

theorem increment_min (w n : Nat) :
    (SatCounter8.mk w (min n (2 ^ w - 1))).increment = ⟨w, min (n + 1) (2 ^ w - 1)⟩ := by
  simp only [SatCounter8.increment, SatCounter8.mk.injEq, true_and]
  omega

/-- The counter at index `i` counts, up to saturation, the calls that train it
with outcome taken, as long as none trains it with outcome not taken. -/
theorem run_counter_at (w i : Nat) (calls : List Call) (s s2 : CustomBP)
    (issued issued2 : List BPHistory) (n : Nat)
    (hc : s.PHTCtr[i]? = some ⟨w, min n (2 ^ w - 1)⟩)
    (hrun : s.run issued calls = some (s2, issued2))
    (hno : ∀ c ∈ calls, c.hit s i ≠ some false) :
    s2.PHTCtr[i]? = some ⟨w, min (n + takenHits s i calls) (2 ^ w - 1)⟩ := by
  induction calls generalizing s issued n with
  | nil =>
    simp only [run, Option.some.injEq, Prod.mk.injEq] at hrun
    obtain ⟨rfl, rfl⟩ := hrun
    simpa [takenHits] using hc
  | cons c cs ih =>
    simp only [run] at hrun
    cases hs : s.step c with
    | none => simp [hs] at hrun
    | some x =>
      obtain ⟨s1, r⟩ := x
      simp only [hs] at hrun
      obtain ⟨hidx, _⟩ := step_config s s1 c r hs
      have hno1 : ∀ c' ∈ cs, c'.hit s1 i ≠ some false := by
        intro c' hc'
        rw [hit_congr s s1 i c' hidx]
        exact hno c' (List.mem_cons_of_mem _ hc')
      have hcount : takenHits s i (c :: cs)
          = (if c.hit s i = some true then 1 else 0) + takenHits s1 i cs := by
        rw [takenHits_congr s s1 i cs hidx]
        unfold takenHits
        rw [List.countP_cons]
        by_cases hh : c.hit s i = some true <;> simp [hh, Nat.add_comm]
      cases hhit : c.hit s i with
      | none =>
        have h1 := step_hit_none s s1 c r i hs hhit
        have := ih s1 (r.toList ++ issued) n (by rw [h1]; exact hc) hrun hno1
        rw [hcount, hhit]
        simpa using this
      | some t =>
        cases t with
        | false => exact absurd hhit (hno c (List.mem_cons_self _ _))
        | true =>
          obtain ⟨c0, h0, h1⟩ := step_hit_some s s1 c r i true hs hhit
          rw [hc] at h0
          simp only [Option.some.injEq] at h0
          subst h0
          simp only [if_true] at h1
          rw [increment_min] at h1
          have := ih s1 (r.toList ++ issued) (n + 1) h1 hrun hno1
          rw [hcount, hhit]
          simp only [if_true]
          rw [show n + (1 + takenHits s1 i cs) = n + 1 + takenHits s1 i cs by omega]
          exact this

end CustomBP

/-- C18: start from a freshly constructed predictor with counter width `w` between 1
and 8 and run any calls of which none trains PHT index `i` with outcome not taken;
with `k` the number of calls that train index `i` with outcome taken, a `lookup`
whose index is `i` predicts taken exactly when `k >= 2^(w-1)`.  In particular a
fresh predictor predicts not taken for every valid thread and every address
whose index lies in the table. -/
theorem C18_training_threshold (params : CustomBPParams) (s0 s : CustomBP)
    (calls : List Call) (issued : List BPHistory) (i : Nat)
    (hnew : CustomBP.new params = .ok s0)
    (hw : 1 ≤ params.PHTCtrBits ∧ params.PHTCtrBits ≤ 8)
    (hi : i < params.PredictorSize)
    (hrun : s0.run [] calls = some (s, issued))
    (hno : ∀ c ∈ calls, c.hit s0 i ≠ some false) :
    (∀ (tid branchAddr g : Nat), s.globalHistory[tid]? = some g → s.PHTIdx branchAddr g = i →
      ∃ (record : BPHistory) (s' : CustomBP),
        s.lookup tid branchAddr
          = some (decide (2 ^ (params.PHTCtrBits - 1) ≤ takenHits s0 i calls), record, s')) ∧
    (∀ (tid branchAddr : Nat), tid < params.numThreads → s0.PHTIdx branchAddr 0 = i →
      ∃ (record : BPHistory) (s' : CustomBP),
        s0.lookup tid branchAddr = some (false, record, s')) := by
  obtain ⟨_, _, _, hgh, _, _, hbits, hpht, _, hcfg⟩ := CustomBP.new_ok params s0 hnew
  have hthr : s0.PHTThreshold = 2 ^ (params.PHTCtrBits - 1) - 1 := by
    rw [hcfg.2.2, hbits, threshold_eq _ hw.1 (by omega)]
  have hc0 : s0.PHTCtr[i]? = some ⟨params.PHTCtrBits, min 0 (2 ^ params.PHTCtrBits - 1)⟩ := by
    rw [hpht, List.getElem?_replicate_of_lt hi]
    simp [SatCounter8.new]
  have hpow : 2 ^ params.PHTCtrBits = 2 * 2 ^ (params.PHTCtrBits - 1) := by
    rw [← Nat.pow_succ']
    congr 1
    omega
  have hpos : 0 < 2 ^ (params.PHTCtrBits - 1) := Nat.two_pow_pos _
  have key : ∀ (s2 : CustomBP) (k : Nat), s2.globalHistoryMask = s0.globalHistoryMask →
      s2.PHTThreshold = s0.PHTThreshold →
      s2.PHTCtr[i]? = some ⟨params.PHTCtrBits, min k (2 ^ params.PHTCtrBits - 1)⟩ →
      ∀ (tid branchAddr g : Nat), s2.globalHistory[tid]? = some g →
        s2.PHTIdx branchAddr g = i →
        ∃ (record : BPHistory) (s' : CustomBP),
          s2.lookup tid branchAddr
            = some (decide (2 ^ (params.PHTCtrBits - 1) ≤ k), record, s') := by
    intro s2 k hmask hthr2 hc tid branchAddr g hg hidx
    have hm : s2.globalHistoryMask < 2 ^ 32 := by rw [hmask]; exact hcfg.mask_lt
    have hl := CustomBP.lookup_eq s2 tid branchAddr g _ hm hg (by rw [hidx]; exact hc)
    have hd : decide ((SatCounter8.mk params.PHTCtrBits
        (min k (2 ^ params.PHTCtrBits - 1))).read > s2.PHTThreshold)
        = decide (2 ^ (params.PHTCtrBits - 1) ≤ k) := by
      rw [hthr2, hthr]
      simp only [SatCounter8.read, decide_eq_decide]
      omega
    rw [hd] at hl
    exact ⟨_, _, hl⟩
  constructor
  · obtain ⟨_, b2, b3, _⟩ := CustomBP.run_config calls s0 s [] issued hrun
    have hc := CustomBP.run_counter_at params.PHTCtrBits i calls s0 s [] issued 0 hc0 hrun hno
    rw [Nat.zero_add] at hc
    exact key s (takenHits s0 i calls) b3 b2 hc
  · intro tid branchAddr htid hidx
    have hg : s0.globalHistory[tid]? = some 0 := by
      rw [hgh]; exact List.getElem?_replicate_of_lt htid
    obtain ⟨record, s', hl⟩ := key s0 0 rfl rfl hc0 tid branchAddr 0 hg hidx
    have hf : decide (2 ^ (params.PHTCtrBits - 1) ≤ 0) = false := by
      simp only [decide_eq_false_iff_not]
      omega
    rw [hf] at hl
    exact ⟨record, s', hl⟩

/-- Witness of C18: the example configuration (`globalHistoryBits = 4`,
`PredictorSize = 16`, `PHTCtrBits = 2`) and index 5, after `exampleCalls`. -/
theorem C18_training_threshold_witness :
    (∀ (tid branchAddr g : Nat), exampleFinal.globalHistory[tid]? = some g →
      exampleFinal.PHTIdx branchAddr g = 5 →
      ∃ (record : BPHistory) (s' : CustomBP),
        exampleFinal.lookup tid branchAddr
          = some (decide (2 ^ (exampleParams.PHTCtrBits - 1)
              ≤ takenHits examplePredictor 5 exampleCalls), record, s')) ∧
    (∀ (tid branchAddr : Nat), tid < exampleParams.numThreads →
      examplePredictor.PHTIdx branchAddr 0 = 5 →
      ∃ (record : BPHistory) (s' : CustomBP),
        examplePredictor.lookup tid branchAddr = some (false, record, s')) :=
  C18_training_threshold exampleParams examplePredictor exampleFinal exampleCalls
    [⟨0, 1⟩, ⟨0, 1⟩, ⟨0, 0⟩] 5 (by rfl) (by decide) (by decide) (by decide) (by decide)

/-! ## Replacement policy: victim selection -/

namespace LRU_Variation

/-- The loop of `getVictim` either keeps the values it started with, when no
entry exceeds `max_recency`, or ends at the first position of the maximum. -/
theorem getVictimLoop_spec (l : List Int) (i : Nat) (m v : Int) :
    (∀ x ∈ l, x ≤ (getVictimLoop l i m v).1) ∧ m ≤ (getVictimLoop l i m v).1 ∧
    ((getVictimLoop l i m v = (m, v) ∧ ∀ x ∈ l, x ≤ m) ∨
      (∃ k : Nat, k < l.length ∧ (getVictimLoop l i m v).2 = ((i + k : Nat) : Int) ∧
        l[k]? = some (getVictimLoop l i m v).1 ∧ m < (getVictimLoop l i m v).1 ∧
        ∀ (j : Nat) (y : Int), j < k → l[j]? = some y → y < (getVictimLoop l i m v).1)) := by
  induction l generalizing i m v with
  | nil => exact ⟨by simp, by simp [getVictimLoop], Or.inl ⟨rfl, by simp⟩⟩
  | cons value rest ih =>
    by_cases hgt : value > m
    · have hstep : getVictimLoop (value :: rest) i m v = getVictimLoop rest (i + 1) value i := by
        simp [getVictimLoop, hgt]
      rw [hstep]
      obtain ⟨h1, h2, h3⟩ := ih (i + 1) value i
      refine ⟨?_, by omega, Or.inr ?_⟩
      · intro x hx
        rcases List.mem_cons.mp hx with rfl | hx
        · exact h2
        · exact h1 x hx
      · rcases h3 with ⟨heq, _⟩ | ⟨k, hk, hidx, hval, hlt, hfirst⟩
        · refine ⟨0, by simp, by rw [heq]; simp, by rw [heq]; simp, by rw [heq]; exact hgt, ?_⟩
          intro j y hj
          omega
        · refine ⟨k + 1, by simp; omega, by rw [hidx]; push_cast; omega, by simpa using hval,
            by omega, ?_⟩
          intro j y hj hy
          cases j with
          | zero =>
            simp only [List.getElem?_cons_zero, Option.some.injEq] at hy
            omega
          | succ j =>
            simp only [List.getElem?_cons_succ] at hy
            exact hfirst j y (by omega) hy
    · have hstep : getVictimLoop (value :: rest) i m v = getVictimLoop rest (i + 1) m v := by
        simp [getVictimLoop, hgt]
      rw [hstep]
      obtain ⟨h1, h2, h3⟩ := ih (i + 1) m v
      refine ⟨?_, h2, ?_⟩
      · intro x hx
        rcases List.mem_cons.mp hx with rfl | hx
        · omega
        · exact h1 x hx
      · rcases h3 with ⟨heq, hall⟩ | ⟨k, hk, hidx, hval, hlt, hfirst⟩
        · refine Or.inl ⟨heq, ?_⟩
          intro x hx
          rcases List.mem_cons.mp hx with rfl | hx
          · omega
          · exact hall x hx
        · refine Or.inr ⟨k + 1, by simp; omega, by rw [hidx]; push_cast; omega,
            by simpa using hval, hlt, ?_⟩
          intro j y hj hy
          cases j with
          | zero =>
            simp only [List.getElem?_cons_zero, Option.some.injEq] at hy
            omega
          | succ j =>
            simp only [List.getElem?_cons_succ] at hy
            exact hfirst j y (by omega) hy

/-- On a non-empty stack of non-negative recencies `victim_index` ends at the
first position that holds the maximum. -/
theorem victimIndex_spec (RStack : List Int) (hne : 0 < RStack.length)
    (hpos : ∀ r ∈ RStack, 0 ≤ r) :
    ∃ (k : Nat) (m : Int), k < RStack.length ∧ victimIndex RStack = (k : Int) ∧
      RStack[k]? = some m ∧ (∀ r ∈ RStack, r ≤ m) ∧
      ∀ (j : Nat) (y : Int), j < k → RStack[j]? = some y → y < m := by
  obtain ⟨h1, _, h3⟩ := getVictimLoop_spec RStack 0 (-1) (-1)
  rcases h3 with ⟨_, hall⟩ | ⟨k, hk, hidx, hval, _, hfirst⟩
  · obtain ⟨x, hx⟩ := List.exists_mem_of_length_pos hne
    have := hall x hx
    have := hpos x hx
    omega
  · exact ⟨k, _, hk, by simpa [victimIndex] using hidx, hval, h1, hfirst⟩

end LRU_Variation

/-- C12: for a non-empty candidate list with one entry per position of the recency
stack, all recencies being at least 0, `victim_index` ends at a valid position
`k` (not -1), `getVictim` returns candidate `k`, the recency at `k` is the
maximum of the stack, and every earlier position holds a smaller recency. -/
theorem C12_getVictim_max {α : Type} (candidates : List α) (RStack : List Int)
    (hlen : candidates.length = RStack.length) (hne : 0 < candidates.length)
    (hpos : ∀ r ∈ RStack, 0 ≤ r) :
    ∃ (k : Nat) (m : Int) (victim : α), k < RStack.length ∧
      LRU_Variation.victimIndex RStack = (k : Int) ∧
      candidates[k]? = some victim ∧
      LRU_Variation.getVictim candidates RStack = some victim ∧
      RStack[k]? = some m ∧ (∀ r ∈ RStack, r ≤ m) ∧
      ∀ (j : Nat) (y : Int), j < k → RStack[j]? = some y → y < m := by
  obtain ⟨k, m, hk, hidx, hval, hmax, hfirst⟩ :=
    LRU_Variation.victimIndex_spec RStack (by omega) hpos
  have hk' : k < candidates.length := by omega
  refine ⟨k, m, candidates[k], hk, hidx, List.getElem?_eq_getElem hk', ?_, hval, hmax, hfirst⟩
  have hne' : candidates.length ≠ 0 := by omega
  simp [LRU_Variation.getVictim, hne', hidx, List.getElem?_eq_getElem hk']

/-- Witness of C12: sixteen candidates (their positions) and `exampleStack`, whose
maximum 16 is held by positions 1 and 4. -/
theorem C12_getVictim_max_witness :
    ∃ (k : Nat) (m : Int) (victim : Nat), k < LRU_Variation.exampleStack.length ∧
      LRU_Variation.victimIndex LRU_Variation.exampleStack = (k : Int) ∧
      (List.range 16)[k]? = some victim ∧
      LRU_Variation.getVictim (List.range 16) LRU_Variation.exampleStack = some victim ∧
      LRU_Variation.exampleStack[k]? = some m ∧
      (∀ r ∈ LRU_Variation.exampleStack, r ≤ m) ∧
      ∀ (j : Nat) (y : Int), j < k → LRU_Variation.exampleStack[j]? = some y → y < m :=
  C12_getVictim_max (List.range 16) LRU_Variation.exampleStack (by decide) (by decide)
    (by decide)

/-! ## Replacement policy: insertion and promotion -/

namespace LRU_Variation

theorem IPVat_spec (c : Int) (h0 : 0 ≤ c) (h15 : c ≤ 15) :
    ∃ u : Int, IPVat c = some u ∧ IPV[c.toNat]? = some u ∧ 0 ≤ u ∧ u ≤ c := by
  obtain ⟨n, rfl⟩ := Int.eq_ofNat_of_zero_le h0
  have hn : n < 16 := by omega
  interval_cases n <;> exact ⟨_, rfl, rfl, by decide, by decide⟩

theorem reset_eq (RStack : List Int) (p : Nat) (hp : p < RStack.length) :
    reset RStack p = some ((RStack.map fun r =>
      if r ≥ insertionRecency ∧ r < (RStack.length : Int) then r + 1 else r).set p
        insertionRecency) := by
  simp [reset, hp]

theorem touch_eq (RStack : List Int) (p : Nat) (c u : Int) (hc : RStack[p]? = some c)
    (h16 : c ≠ set_associativity) (hu : IPVat c = some u) :
    touch RStack p = some ((RStack.map fun r =>
      if r ≥ u ∧ r < c then r + 1 else r).set p u) := by
  simp [touch, hc, h16, hu]

theorem getElem?_map_set_ne (l : List Int) (f : Int → Int) (p i : Nat) (a r : Int)
    (hne : i ≠ p) (hr : l[i]? = some r) : ((l.map f).set p a)[i]? = some (f r) := by
  simp [List.getElem?_set, Ne.symm hne, List.getElem?_map, hr]

theorem getElem?_map_set_self (l : List Int) (f : Int → Int) (p : Nat) (a : Int)
    (hp : p < l.length) : ((l.map f).set p a)[p]? = some a := by
  simp [List.getElem?_set, hp]

end LRU_Variation

/-- C13: on the recency stack of a 16-way set, `reset` on the block at position
`p` returns; afterwards the recency of `p` is `insertionRecency = 3`, every
other block whose recency `r` satisfied `3 <= r <= 15` has recency `r + 1`, and
every other block with recency below 3 or equal to 16 is unchanged. -/
theorem C13_reset_insertion (RStack : List Int) (p : Nat) (hlen : RStack.length = 16)
    (hp : p < 16) :
    ∃ RStack' : List Int, LRU_Variation.reset RStack p = some RStack' ∧
      RStack'.length = 16 ∧ RStack'[p]? = some 3 ∧
      ∀ (i : Nat) (r : Int), i ≠ p → RStack[i]? = some r →
        (3 ≤ r ∧ r ≤ 15 → RStack'[i]? = some (r + 1)) ∧
        (r < 3 ∨ r = 16 → RStack'[i]? = some r) := by
  have hp' : p < RStack.length := by omega
  refine ⟨_, LRU_Variation.reset_eq RStack p hp', by simp [hlen],
    LRU_Variation.getElem?_map_set_self _ _ _ _ hp', ?_⟩
  intro i r hne hr
  rw [LRU_Variation.getElem?_map_set_ne _ _ _ _ _ _ hne hr, hlen]
  simp only [LRU_Variation.insertionRecency, Option.some.injEq]
  constructor
  · intro h
    rw [if_pos (by constructor <;> push_cast <;> omega)]
  · intro h
    rw [if_neg (by push_cast; omega)]

/-- Witness of C13: `reset` at position 1 of `fullStack`. -/
theorem C13_reset_insertion_witness :
    ∃ RStack' : List Int, LRU_Variation.reset LRU_Variation.fullStack 1 = some RStack' ∧
      RStack'.length = 16 ∧ RStack'[1]? = some 3 ∧
      ∀ (i : Nat) (r : Int), i ≠ 1 → LRU_Variation.fullStack[i]? = some r →
        (3 ≤ r ∧ r ≤ 15 → RStack'[i]? = some (r + 1)) ∧
        (r < 3 ∨ r = 16 → RStack'[i]? = some r) :=
  C13_reset_insertion LRU_Variation.fullStack 1 (by decide) (by decide)

/-- C14: on the recency stack of a 16-way set, `touch` on a block at position `p`
with recency `c` in `0..15` returns; afterwards the recency of `p` is `IPV[c]`,
every other block whose recency `r` satisfied `IPV[c] <= r < c` has recency
`r + 1`, and all remaining blocks are unchanged (for `c = 5`, `IPV[5] = 0`: the
blocks at recencies 0 to 4 rise by one).  When the recency of `p` is 16, `touch`
changes nothing. -/
theorem C14_touch_promotion (RStack : List Int) (p : Nat) (c : Int)
    (hlen : RStack.length = 16) (hc : RStack[p]? = some c) :
    (0 ≤ c ∧ c ≤ 15 →
      ∃ (u : Int) (RStack' : List Int), LRU_Variation.IPV[c.toNat]? = some u ∧
        LRU_Variation.touch RStack p = some RStack' ∧
        RStack'.length = 16 ∧ RStack'[p]? = some u ∧
        ∀ (i : Nat) (r : Int), i ≠ p → RStack[i]? = some r →
          (u ≤ r ∧ r < c → RStack'[i]? = some (r + 1)) ∧
          (¬ (u ≤ r ∧ r < c) → RStack'[i]? = some r)) ∧
    (c = 16 → LRU_Variation.touch RStack p = some RStack) ∧
    LRU_Variation.IPV = [0, 0, 1, 0, 2, 0, 2, 2, 1, 0, 5, 1, 0, 0, 5, 11] := by
  have hp : p < RStack.length := CustomBP.lt_length_of_getElem? _ _ _ hc
  refine ⟨?_, ?_, rfl⟩
  · intro ⟨h0, h15⟩
    obtain ⟨u, hu, hipv, _, _⟩ := LRU_Variation.IPVat_spec c h0 h15
    have h16 : c ≠ LRU_Variation.set_associativity := by
      simp only [LRU_Variation.set_associativity]; omega
    refine ⟨u, _, hipv, LRU_Variation.touch_eq RStack p c u hc h16 hu, by simp [hlen],
      LRU_Variation.getElem?_map_set_self _ _ _ _ hp, ?_⟩
    intro i r hne hr
    rw [LRU_Variation.getElem?_map_set_ne _ _ _ _ _ _ hne hr]
    constructor
    · intro h
      rw [if_pos ⟨h.1, h.2⟩]
    · intro h
      rw [if_neg (fun h' => h ⟨h'.1, h'.2⟩)]
  · intro h16
    simp [LRU_Variation.touch, hc, h16, LRU_Variation.set_associativity]

/-- Witness of C14: `touch` at position 13 of `fullStack`, whose recency is 5. -/
theorem C14_touch_promotion_witness :
    (0 ≤ (5 : Int) ∧ (5 : Int) ≤ 15 →
      ∃ (u : Int) (RStack' : List Int), LRU_Variation.IPV[(5 : Int).toNat]? = some u ∧
        LRU_Variation.touch LRU_Variation.fullStack 13 = some RStack' ∧
        RStack'.length = 16 ∧ RStack'[13]? = some u ∧
        ∀ (i : Nat) (r : Int), i ≠ 13 → LRU_Variation.fullStack[i]? = some r →
          (u ≤ r ∧ r < 5 → RStack'[i]? = some (r + 1)) ∧
          (¬ (u ≤ r ∧ r < 5) → RStack'[i]? = some r)) ∧
    ((5 : Int) = 16 → LRU_Variation.touch LRU_Variation.fullStack 13
      = some LRU_Variation.fullStack) ∧
    LRU_Variation.IPV = [0, 0, 1, 0, 2, 0, 2, 2, 1, 0, 5, 1, 0, 0, 5, 11] :=
  C14_touch_promotion LRU_Variation.fullStack 13 5 (by decide) (by decide)

/-! ## Replacement policy: the recency-stack invariant -/

namespace LRU_Variation

theorem getElem?_map_set_cases (l : List Int) (f : Int → Int) (p i : Nat) (a v : Int)
    (h : ((l.map f).set p a)[i]? = some v) :
    (i = p ∧ v = a) ∨ (i ≠ p ∧ ∃ r, l[i]? = some r ∧ v = f r) := by
  by_cases hi : i = p
  · subst hi
    left
    simp only [List.getElem?_set, if_true] at h
    split_ifs at h
    simp only [Option.some.injEq] at h
    exact ⟨rfl, h.symm⟩
  · right
    simp only [List.getElem?_set, Ne.symm hi, if_false, List.getElem?_map] at h
    cases hr : l[i]? with
    | none => simp [hr] at h
    | some r =>
      simp only [hr, Option.map_some', Option.some.injEq] at h
      exact ⟨hi, r, rfl, h.symm⟩

theorem initialStack_inv : StackInv initialStack := by
  refine ⟨by decide, ?_, ?_⟩
  · intro i v h
    have := List.eq_of_mem_replicate (List.getElem?_mem h)
    simp only [set_associativity] at this
    omega
  · intro i j v h _ hv
    have := List.eq_of_mem_replicate (List.getElem?_mem h)
    simp only [set_associativity] at this
    omega

theorem reset_inv (RStack : List Int) (p : Nat) (hp : p < 16) (h : StackInv RStack) :
    ∃ RStack' : List Int, reset RStack p = some RStack' ∧ StackInv RStack' := by
  obtain ⟨hlen, hrange, hdist⟩ := h
  refine ⟨_, reset_eq RStack p (by omega), by simp [hlen], ?_, ?_⟩
  · intro i v hv
    rcases getElem?_map_set_cases _ _ _ _ _ _ hv with ⟨_, rfl⟩ | ⟨_, r, hr, rfl⟩
    · simp [insertionRecency]
    · have := hrange i r hr
      simp only [insertionRecency, hlen]
      split_ifs with hc
      · push_cast at hc; omega
      · omega
  · intro i j v hi hj hv
    simp only [insertionRecency, hlen] at hi hj
    rcases getElem?_map_set_cases _ _ _ _ _ _ hi with ⟨rfl, hvi⟩ | ⟨hip, a, ha, hvi⟩ <;>
      rcases getElem?_map_set_cases _ _ _ _ _ _ hj with ⟨rfl, hvj⟩ | ⟨hjp, b, hb, hvj⟩
    · rfl
    · exfalso
      have := hrange j b hb
      rw [hvi] at hvj
      split_ifs at hvj with hc <;> push_cast at * <;> omega
    · exfalso
      have := hrange i a ha
      rw [hvj] at hvi
      split_ifs at hvi with hc <;> push_cast at * <;> omega
    · have hra := hrange i a ha
      have hrb := hrange j b hb
      have hab : a = b ∧ a < 16 := by
        rw [hvi] at hvj hv
        split_ifs at hvj hv with hc1 hc2 <;> push_cast at * <;> omega
      rw [← hab.1] at hb
      exact hdist i j a ha hb hab.2

theorem touch_inv (RStack : List Int) (p : Nat) (hp : p < 16) (h : StackInv RStack) :
    ∃ RStack' : List Int, touch RStack p = some RStack' ∧ StackInv RStack' := by
  obtain ⟨hlen, hrange, hdist⟩ := h
  have hc : RStack[p]? = some RStack[p] := List.getElem?_eq_getElem (by omega)
  generalize RStack[p] = c at hc
  have hrc := hrange p c hc
  by_cases h16 : c = 16
  · exact ⟨RStack, by simp [touch, hc, h16, set_associativity], hlen, hrange, hdist⟩
  · obtain ⟨u, hu, _, hu0, huc⟩ := IPVat_spec c hrc.1 (by omega)
    have hne : c ≠ set_associativity := by simpa [set_associativity] using h16
    refine ⟨_, touch_eq RStack p c u hc hne hu, by simp [hlen], ?_, ?_⟩
    · intro i v hv
      rcases getElem?_map_set_cases _ _ _ _ _ _ hv with ⟨_, rfl⟩ | ⟨_, r, hr, rfl⟩
      · omega
      · have := hrange i r hr
        split_ifs with hcnd <;> omega
    · intro i j v hi hj hv
      rcases getElem?_map_set_cases _ _ _ _ _ _ hi with ⟨rfl, hvi⟩ | ⟨hip, a, ha, hvi⟩ <;>
        rcases getElem?_map_set_cases _ _ _ _ _ _ hj with ⟨rfl, hvj⟩ | ⟨hjp, b, hb, hvj⟩
      · rfl
      · exfalso
        have hbc : b = c := by
          rw [hvi] at hvj
          split_ifs at hvj with hcnd <;> omega
        rw [hbc] at hb
        exact hjp (hdist j _ c hb hc (by omega))
      · exfalso
        have hac : a = c := by
          rw [hvj] at hvi
          split_ifs at hvi with hcnd <;> omega
        rw [hac] at ha
        exact hip (hdist i _ c ha hc (by omega))
      · have hra := hrange i a ha
        have hrb := hrange j b hb
        by_cases hac : a = c
        · rw [hac] at ha
          exact absurd (hdist i p c ha hc (by omega)) hip
        · by_cases hbc : b = c
          · rw [hbc] at hb
            exact absurd (hdist j p c hb hc (by omega)) hjp
          · have hab : a = b ∧ a < 16 := by
              rw [hvi] at hvj hv
              split_ifs at hvj hv with hc1 hc2 <;> omega
            rw [← hab.1] at hb
            exact hdist i j a ha hb hab.2

theorem applyOps_inv (ops : List Op) (RStack : List Int) (h : StackInv RStack)
    (hops : ∀ op ∈ ops, op.position < 16) :
    ∃ RStack' : List Int, applyOps RStack ops = some RStack' ∧ StackInv RStack' := by
  induction ops generalizing RStack with
  | nil => exact ⟨RStack, rfl, h⟩
  | cons op ops ih =>
    have hrest : ∀ op' ∈ ops, op'.position < 16 :=
      fun op' hm => hops op' (List.mem_cons_of_mem _ hm)
    have hp := hops op (List.mem_cons_self _ _)
    cases op with
    | reset p =>
      obtain ⟨st1, h1, hinv1⟩ := reset_inv RStack p hp h
      obtain ⟨st2, h2, hinv2⟩ := ih st1 hinv1 hrest
      exact ⟨st2, by simp [applyOps, h1, h2], hinv2⟩
    | touch p =>
      obtain ⟨st1, h1, hinv1⟩ := touch_inv RStack p hp h
      obtain ⟨st2, h2, hinv2⟩ := ih st1 hinv1 hrest
      exact ⟨st2, by simp [applyOps, h1, h2], hinv2⟩

end LRU_Variation

/-- C19: any sequence of `reset` and `touch` calls on positions 0 to 15, started on
the initial stack of a 16-way set, returns a stack of 16 recencies, each
between 0 and 16, in which no recency below 16 is held by two positions; hence
a recency read by `touch` that is not 16 is a valid index of the 16 entries of
`IPV`, and a further `touch` on any position returns. -/
theorem C19_recency_stack_invariant (ops : List LRU_Variation.Op)
    (hops : ∀ op ∈ ops, op.position < 16) :
    ∃ RStack : List Int, LRU_Variation.applyOps LRU_Variation.initialStack ops = some RStack ∧
      RStack.length = 16 ∧
      (∀ (i : Nat) (v : Int), RStack[i]? = some v → 0 ≤ v ∧ v ≤ 16) ∧
      (∀ (i j : Nat) (v : Int), RStack[i]? = some v → RStack[j]? = some v → v < 16 → i = j) ∧
      (∀ (p : Nat) (c : Int), RStack[p]? = some c → c ≠ 16 →
        0 ≤ c ∧ c.toNat < LRU_Variation.IPV.length ∧
        ∃ u, LRU_Variation.IPVat c = some u) ∧
      (∀ p : Nat, p < 16 → ∃ RStack' : List Int, LRU_Variation.touch RStack p = some RStack') := by
  obtain ⟨RStack, hrun, hinv⟩ :=
    LRU_Variation.applyOps_inv ops _ LRU_Variation.initialStack_inv hops
  refine ⟨RStack, hrun, hinv.1, hinv.2.1, hinv.2.2, ?_, ?_⟩
  · intro p c hc h16
    have hr := hinv.2.1 p c hc
    obtain ⟨u, hu, _, _, _⟩ := LRU_Variation.IPVat_spec c hr.1 (by omega)
    refine ⟨hr.1, ?_, u, hu⟩
    have : LRU_Variation.IPV.length = 16 := by decide
    omega
  · intro p hp
    obtain ⟨st, h, _⟩ := LRU_Variation.touch_inv RStack p hp hinv
    exact ⟨st, h⟩

/-- Witness of C19: three insertions, a hit on each of two of the blocks and a
fourth insertion. -/
theorem C19_recency_stack_invariant_witness :
    ∃ RStack : List Int,
      LRU_Variation.applyOps LRU_Variation.initialStack
        [.reset 0, .reset 1, .reset 2, .touch 0, .touch 1, .reset 3] = some RStack ∧
      RStack.length = 16 ∧
      (∀ (i : Nat) (v : Int), RStack[i]? = some v → 0 ≤ v ∧ v ≤ 16) ∧
      (∀ (i j : Nat) (v : Int), RStack[i]? = some v → RStack[j]? = some v → v < 16 → i = j) ∧
      (∀ (p : Nat) (c : Int), RStack[p]? = some c → c ≠ 16 →
        0 ≤ c ∧ c.toNat < LRU_Variation.IPV.length ∧
        ∃ u, LRU_Variation.IPVat c = some u) ∧
      (∀ p : Nat, p < 16 → ∃ RStack' : List Int, LRU_Variation.touch RStack p = some RStack') :=
  C19_recency_stack_invariant [.reset 0, .reset 1, .reset 2, .touch 0, .touch 1, .reset 3]
    (by decide)

/-! ## Replacement policy: a run of misses -/

namespace LRU_Variation

theorem missRounds_length (n : Nat) (RStack final : List Int) (log : List (Nat × Int))
    (h : missRounds n RStack = some (log, final)) : log.length = n := by
  induction n generalizing RStack log with
  | zero =>
    simp only [missRounds, Option.some.injEq, Prod.mk.injEq] at h
    rw [← h.1]; rfl
  | succ n ih =>
    simp only [missRounds] at h
    cases h1 : missRound RStack with
    | none => simp [h1] at h
    | some x =>
      obtain ⟨v, r, st1⟩ := x
      simp only [h1] at h
      cases h2 : missRounds n st1 with
      | none => simp [h2] at h
      | some y =>
        obtain ⟨log1, fin1⟩ := y
        simp only [h2, Option.some.injEq, Prod.mk.injEq] at h
        rw [← h.1, List.length_cons, ih st1 log1 (by rw [h2, h.2])]

theorem missRounds_add (a b : Nat) (RStack mid final : List Int) (log1 log2 : List (Nat × Int))
    (h1 : missRounds a RStack = some (log1, mid))
    (h2 : missRounds b mid = some (log2, final)) :
    missRounds (a + b) RStack = some (log1 ++ log2, final) := by
  induction a generalizing RStack log1 with
  | zero =>
    simp only [missRounds, Option.some.injEq, Prod.mk.injEq] at h1
    obtain ⟨rfl, rfl⟩ := h1
    simpa using h2
  | succ a ih =>
    simp only [missRounds] at h1
    cases hr : missRound RStack with
    | none => simp [hr] at h1
    | some x =>
      obtain ⟨v, r, st1⟩ := x
      simp only [hr] at h1
      cases hm : missRounds a st1 with
      | none => simp [hm] at h1
      | some y =>
        obtain ⟨l, f⟩ := y
        simp only [hm, Option.some.injEq, Prod.mk.injEq] at h1
        obtain ⟨rfl, rfl⟩ := h1
        have := ih st1 l hm
        rw [Nat.succ_add]
        simp only [missRounds, hr, this, List.cons_append]

theorem missRounds_prefix (a b : Nat) (RStack final : List Int) (log : List (Nat × Int))
    (h : missRounds (a + b) RStack = some (log, final)) :
    ∃ mid : List Int, missRounds a RStack = some (log.take a, mid) := by
  induction a generalizing RStack log with
  | zero => exact ⟨RStack, by simp [missRounds]⟩
  | succ a ih =>
    rw [Nat.succ_add] at h
    simp only [missRounds] at h
    cases hr : missRound RStack with
    | none => simp [hr] at h
    | some x =>
      obtain ⟨v, r, st1⟩ := x
      simp only [hr] at h
      cases hm : missRounds (a + b) st1 with
      | none => simp [hm] at h
      | some y =>
        obtain ⟨l, f⟩ := y
        simp only [hm, Option.some.injEq, Prod.mk.injEq] at h
        obtain ⟨rfl, rfl⟩ := h
        obtain ⟨mid, hmid⟩ := ih st1 l hm
        exact ⟨mid, by simp [missRounds, hr, hmid]⟩

theorem missRounds_initial : missRounds 14 initialStack = some (cycleLog, cycleStack) := by
  decide

theorem missRounds_cycle : missRounds 14 cycleStack = some (cycleLog, cycleStack) := by
  decide

theorem missRounds_repeat (q : Nat) :
    missRounds (14 * q) cycleStack = some (repeatLog q, cycleStack) := by
  induction q with
  | zero => rfl
  | succ q ih =>
    have := missRounds_add 14 (14 * q) cycleStack cycleStack cycleStack cycleLog (repeatLog q)
      missRounds_cycle ih
    rw [show 14 * (q + 1) = 14 + 14 * q by omega]
    exact this

theorem cycleLog_getElem? (k : Nat) (hk : k < 14) : cycleLog[k]? = some (k, 16) := by
  interval_cases k <;> rfl

theorem repeatLog_getElem? (q k : Nat) (hk : k < 14 * q) :
    (repeatLog q)[k]? = some (k % 14, 16) := by
  induction q generalizing k with
  | zero => omega
  | succ q ih =>
    have hlen : cycleLog.length = 14 := by decide
    simp only [repeatLog]
    by_cases h14 : k < 14
    · rw [List.getElem?_append_left (by omega), cycleLog_getElem? k h14, Nat.mod_eq_of_lt h14]
    · rw [List.getElem?_append_right (by omega), hlen, ih (k - 14) (by omega)]
      congr 2
      omega

/-- The log of the first `n` misses on the initial stack. -/
theorem missRounds_log (n : Nat) :
    ∃ (log : List (Nat × Int)) (final : List Int),
      missRounds n initialStack = some (log, final) ∧ log.length = n ∧
      ∀ k : Nat, k < n → log[k]? = some (k % 14, 16) := by
  have hfull := missRounds_add 14 (14 * (n / 14)) initialStack cycleStack cycleStack cycleLog
    (repeatLog (n / 14)) missRounds_initial (missRounds_repeat (n / 14))
  have hsplit : 14 + 14 * (n / 14) = n + (14 + 14 * (n / 14) - n) := by omega
  rw [hsplit] at hfull
  obtain ⟨mid, hmid⟩ := missRounds_prefix n _ initialStack cycleStack _ hfull
  refine ⟨_, mid, hmid, missRounds_length n _ _ _ hmid, ?_⟩
  intro k hk
  rw [List.getElem?_take_of_lt hk]
  have := repeatLog_getElem? (n / 14 + 1) k (by omega)
  simpa [repeatLog] using this

end LRU_Variation

/-- C20: starting from the initial stack of a 16-way set, any number `n` of rounds
`v = getVictim; reset(v)` can be run; the victim of each round
`1 <= round <= n` is position `(round - 1) mod 14`, chosen at recency 16;
positions 14 and 15 are never chosen; and from round 15 on the victim is the
position that was chosen, and inserted by `reset`, 14 rounds earlier. -/
theorem C20_miss_only_cycle (n : Nat) :
    ∃ (log : List (Nat × Int)) (final : List Int),
      LRU_Variation.missRounds n LRU_Variation.initialStack = some (log, final) ∧
      log.length = n ∧
      (∀ round : Nat, 1 ≤ round → round ≤ n →
        log[round - 1]? = some ((round - 1) % 14, 16)) ∧
      (∀ (k v : Nat) (r : Int), log[k]? = some (v, r) → v ≠ 14 ∧ v ≠ 15) ∧
      (∀ round : Nat, 15 ≤ round → round ≤ n →
        ∃ v : Nat, log[round - 1]? = some (v, 16) ∧ log[round - 15]? = some (v, 16)) := by
  obtain ⟨log, final, hrun, hlen, hlog⟩ := LRU_Variation.missRounds_log n
  refine ⟨log, final, hrun, hlen, ?_, ?_, ?_⟩
  · intro round h1 hn
    exact hlog (round - 1) (by omega)
  · intro k v r hk
    have hkn : k < n := by
      rw [← hlen]; exact CustomBP.lt_length_of_getElem? _ _ _ hk
    rw [hlog k hkn] at hk
    simp only [Option.some.injEq, Prod.mk.injEq] at hk
    omega
  · intro round h15 hn
    refine ⟨(round - 1) % 14, hlog (round - 1) (by omega), ?_⟩
    rw [hlog (round - 15) (by omega)]
    congr 2
    omega
